import Mathlib

set_option autoImplicit false
set_option maxRecDepth 100000
set_option linter.unusedTactic false
set_option linter.unreachableTactic false
set_option linter.unusedVariables false

namespace Sqlc

universe u
variable {α : Type u}

/-! ## Go standard library, package sort: the stable sort behind sort.SliceStable

A slice is a list; every function returns the slice it leaves behind. Go ints are natural
numbers here: the indices of stable_func stay between 0 and n, the midpoints
int(uint(i+j) >> 1) are (i+j)/2, and no difference taken by the code is negative. -/

/-- The Swap of the lessSwap pair built by sort.SliceStable: exchanges the elements at
indices i and j of the slice. (Go panics for an index outside the slice; the sort never
passes one, and the definition leaves the slice as it is there.) -/
def swap (data : List α) (i j : Nat) : List α :=
  match data[i]?, data[j]? with
  | some x, some y => (data.set i y).set j x
  | _, _ => data

/-- The Less of the lessSwap pair: the closure given to sort.SliceStable compares the
elements that are at indices i and j of the slice at the time of the call. (False for an
index outside the slice, where Go panics.) -/
def lessAt (less : α → α → Bool) (data : List α) (i j : Nat) : Bool :=
  match data[i]?, data[j]? with
  | some x, some y => less x y
  | _, _ => false

/-- Inner loop of insertionSort_func: for j := i; j > a && Less(j, j-1); j-- then Swap(j, j-1). -/
def insertionInner (less : α → α → Bool) (a : Nat) : Nat → List α → List α
  | 0, data => data
  | j + 1, data =>
    if a < j + 1 ∧ lessAt less data (j + 1) j = true then
      insertionInner less a j (swap data (j + 1) j)
    else data

/-- Go insertionSort_func(data, a, b): for i := a + 1; i < b; i++ run the inner loop. -/
def insertionSort_func (less : α → α → Bool) (data : List α) (a b : Nat) : List α :=
  (List.range' (a + 1) (b - (a + 1))).foldl (fun d i => insertionInner less a i d) data

/-- Go swapRange_func(data, a, b, n): for i := 0; i < n; i++ then Swap(a+i, b+i). -/
def swapRange_func (data : List α) (a b n : Nat) : List α :=
  (List.range n).foldl (fun d i => swap d (a + i) (b + i)) data

/-- The loop of rotate_func: for i != j, exchange the shorter block and shrink the longer.
Returns the slice and the final value of i. -/
def rotateLoop (data : List α) (m i j : Nat) (hi : 0 < i) (hj : 0 < j) : List α × Nat :=
  if h : i = j then (data, i)
  else if hgt : j < i then
    rotateLoop (swapRange_func data (m - i) m j) m (i - j) j (by omega) hj
  else
    rotateLoop (swapRange_func data (m - i) (m + j - i) i) m i (j - i) hi (by omega)
termination_by i + j
decreasing_by all_goals (simp_wf; omega)

/-- Go rotate_func(data, a, m, b): rotates the blocks data[a:m] and data[m:b]. The code
calls it under the guard start < m && m < end only, which is what makes its loop end. -/
def rotate_func (data : List α) (a m b : Nat) (h : a < m ∧ m < b) : List α :=
  let r := rotateLoop data m (m - a) (b - m) (by omega) (by omega)
  swapRange_func r.1 (m - r.2) m r.2

/-- The three binary searches of symMerge_func share this loop:
for i < j, h := (i+j)/2; if cond(h) then i = h + 1 else j = h. -/
def searchLoop (cond : Nat → Bool) (i j : Nat) : Nat :=
  if h : i < j then
    if cond ((i + j) / 2) = true then searchLoop cond ((i + j) / 2 + 1) j
    else searchLoop cond i ((i + j) / 2)
  else i
termination_by j - i
decreasing_by all_goals (simp_wf; omega)

/-- The loop for k := a; k < i-1; k++ then Swap(k, k+1). -/
def swapUp (data : List α) (a i : Nat) : List α :=
  (List.range' a (i - 1 - a)).foldl (fun d k => swap d k (k + 1)) data

/-- The loop for k := m; k > i; k-- then Swap(k, k-1). -/
def swapDown (i : Nat) : Nat → List α → List α
  | 0, data => data
  | k + 1, data => if i < k + 1 then swapDown i k (swap data (k + 1) k) else data

/-- Go symMerge_func(data, a, m, b): merges the sorted blocks data[a:m] and data[m:b]. -/
def symMerge_func (less : α → α → Bool) (data : List α) (a m b : Nat) : List α :=
  if m - a = 1 then
    swapUp data a (searchLoop (fun h => lessAt less data h a) m b)
  else if b - m = 1 then
    swapDown (searchLoop (fun h => !lessAt less data m h) a m) m data
  else
    let mid := (a + b) / 2
    let n := mid + m
    let start0 := if mid < m then n - b else a
    let r := if mid < m then mid else m
    let p := n - 1
    let start := searchLoop (fun c => !lessAt less data (p - c) c) start0 r
    let end_ := n - start
    let d1 := if h : start < m ∧ m < end_ then rotate_func data start m end_ h else data
    let d2 := if a < start ∧ start < mid then symMerge_func less d1 a start mid else d1
    if mid < end_ ∧ end_ < b then symMerge_func less d2 mid end_ b else d2
termination_by b - a
decreasing_by all_goals (simp_wf; omega)

/-- First loop of stable_func, with blockSize = 20:
for b <= n: insertionSort_func(data, a, b); a = b; b += blockSize. Returns the slice and a. -/
def insertionBlocks (less : α → α → Bool) (n : Nat) (data : List α) (a b : Nat) : List α × Nat :=
  if b ≤ n then insertionBlocks less n (insertionSort_func less data a b) b (b + 20)
  else (data, a)
termination_by n + 1 - b
decreasing_by all_goals (simp_wf; omega)

/-- Inner loop of the merging phase of stable_func:
for b <= n: symMerge_func(data, a, a+blockSize, b); a = b; b += 2 * blockSize. -/
def mergePass (less : α → α → Bool) (n blockSize : Nat) (hbs : 0 < blockSize)
    (data : List α) (a b : Nat) : List α × Nat :=
  if b ≤ n then
    mergePass less n blockSize hbs (symMerge_func less data a (a + blockSize) b) b
      (b + 2 * blockSize)
  else (data, a)
termination_by n + 1 - b
decreasing_by all_goals (simp_wf; omega)

/-- Outer loop of the merging phase of stable_func: for blockSize < n, one pass, the
trailing merge, then blockSize *= 2. -/
def mergeRounds (less : α → α → Bool) (n : Nat) (data : List α) (blockSize : Nat)
    (hbs : 0 < blockSize) : List α :=
  if blockSize < n then
    let r := mergePass less n blockSize hbs data 0 (2 * blockSize)
    let d := if r.2 + blockSize < n then symMerge_func less r.1 r.2 (r.2 + blockSize) n else r.1
    mergeRounds less n d (blockSize * 2) (by omega)
  else data
termination_by n - blockSize
decreasing_by all_goals (simp_wf; omega)

/-- Go stable_func(data, n). -/
def stable_func (less : α → α → Bool) (data : List α) (n : Nat) : List α :=
  let r := insertionBlocks less n data 0 20
  mergeRounds less n (insertionSort_func less r.1 r.2 n) 20 (by decide)

/-- Go sort.SliceStable(x, less). -/
def SliceStable (less : α → α → Bool) (x : List α) : List α :=
  stable_func less x x.length

/-! ## Go standard library, packages unicode and strings (on strings as rune lists) -/

/-- Go unicode.IsSpace: the Latin-1 spaces and the White_Space range table. -/
def isSpace (r : Char) : Bool :=
  let n := r.toNat
  (0x09 ≤ n && n ≤ 0x0d) || n == 0x20 || n == 0x85 || n == 0xa0 || n == 0x1680 ||
    (0x2000 ≤ n && n ≤ 0x200a) || n == 0x2028 || n == 0x2029 || n == 0x202f ||
    n == 0x205f || n == 0x3000

/-- Go strings.TrimSpace: removes the leading and the trailing white space. -/
def TrimSpace (s : List Char) : List Char :=
  ((s.dropWhile isSpace).reverse.dropWhile isSpace).reverse

/-- Scan of strings.Replace for a non-empty old: skip counts the runes of a match still to
be dropped; matches are taken left to right and do not overlap. -/
def replaceScan (old new : List Char) : Nat → List Char → List Char
  | _, [] => []
  | skip + 1, _ :: cs => replaceScan old new skip cs
  | 0, c :: cs =>
    if old.isPrefixOf (c :: cs) then new ++ replaceScan old new (old.length - 1) cs
    else c :: replaceScan old new 0 cs

/-- Go strings.Replace(s, old, new, -1): every non-overlapping instance of old replaced by
new; an empty old matches before every rune and at the end. -/
def Replace (s old new : List Char) : List Char :=
  if old = new then s
  else if old = [] then new ++ s.flatMap (fun c => c :: new)
  else replaceScan old new 0 s

/-- Scan of strings.Split for a non-empty separator: cur holds the runes of the current
piece in reverse. -/
def splitScan (sep : List Char) : Nat → List Char → List Char → List (List Char)
  | _, cur, [] => [cur.reverse]
  | skip + 1, cur, _ :: cs => splitScan sep skip cur cs
  | 0, cur, c :: cs =>
    if sep.isPrefixOf (c :: cs) then cur.reverse :: splitScan sep (sep.length - 1) [] cs
    else splitScan sep 0 (c :: cur) cs

/-- Go strings.Split(s, sep): the pieces of s between the instances of sep; an empty sep
splits after every rune. -/
def Split (s sep : List Char) : List (List Char) :=
  if sep = [] then s.map (fun c => [c]) else splitScan sep 0 [] s

/-- The Unicode tables that Go consults for runes above U+007F. -/
structure UnicodeTables where
  /-- Table behind unicode.IsLetter. -/
  isLetter : Char → Bool
  /-- Table behind unicode.IsDigit. -/
  isDigit : Char → Bool
  /-- Table behind unicode.To(TitleCase, r). -/
  toTitle : Char → Char

/-- Go strings.isSeparator. -/
def isSeparator (u : UnicodeTables) (r : Char) : Bool :=
  if r.toNat ≤ 0x7F then
    if '0' ≤ r ∧ r ≤ '9' then false
    else if 'a' ≤ r ∧ r ≤ 'z' then false
    else if 'A' ≤ r ∧ r ≤ 'Z' then false
    else if r = '_' then false
    else true
  else if u.isLetter r || u.isDigit r then false
  else isSpace r

/-- Go unicode.ToTitle. -/
def ToTitle (u : UnicodeTables) (r : Char) : Char :=
  if r.toNat ≤ 0x7F then
    if 'a' ≤ r ∧ r ≤ 'z' then Char.ofNat (r.toNat - ('a'.toNat - 'A'.toNat)) else r
  else u.toTitle r

/-- The mapping closure of strings.Title, with prev as explicit state. -/
def titleScan (u : UnicodeTables) : Char → List Char → List Char
  | _, [] => []
  | prev, r :: rs =>
    (if isSeparator u prev then ToTitle u r else r) :: titleScan u r rs

/-- Go strings.Title: the letters that begin words mapped to title case. -/
def Title (u : UnicodeTables) (s : List Char) : List Char :=
  titleScan u ' ' s

/-! ## sqlc-pg-gen -/

/-- Modelled from the spec: the Proc record (its type declaration is not among the source
files). Fields as in section 3 of the spec. -/
structure Proc where
  Name : String
  ArgTypes : List String
  ArgNames : List String
  ArgHasDefault : List Bool
  ArgModes : List String
  ReturnTypeName : String
deriving DecidableEq

/-- Modelled from the spec: the Column record of a Relation. -/
structure Column where
  Name : String
  TypeName : String
  IsArray : Bool
  IsNotNull : Bool
  Length : Option Nat
deriving DecidableEq

/-- Modelled from the spec: the Relation record (its type declaration is not among the
source files). -/
structure Relation where
  Catalog : String
  SchemaName : String
  Name : String
  Columns : List Column
deriving DecidableEq

/-- The template context of main.go. -/
structure tmplCtx where
  Pkg : String
  GenFnName : String
  SchemaName : String
  Procs : List Proc
  Relations : List Relation
deriving DecidableEq

/-- Function clean of main.go. -/
def clean (arg : String) : String :=
  String.mk
    (Replace
      (Replace (Replace (TrimSpace arg.data) "\"any\"".data "any".data) "\"char\"".data
        "char".data)
      "\"timestamp\"".data "char".data)

/-- The closure passed to sort.SliceStable in preserveLegacyCatalogBehavior. -/
def legacyLess (fnA fnB : Proc) : Bool :=
  if fnA.Name == "lower" && fnB.Name == "lower" && fnA.ArgTypes.length == 1 &&
      fnA.ArgTypes[0]? == some "text" then true
  else if fnA.Name == "generate_series" && fnB.Name == "generate_series" &&
      fnA.ArgTypes.length == 2 && fnA.ArgTypes[0]? == some "numeric" then true
  else false

/-- Function preserveLegacyCatalogBehavior of main.go: the stable sort with the legacy
comparator, then the copy that skips the procs named concat. -/
def preserveLegacyCatalogBehavior (allProcs : List Proc) : List Proc :=
  (SliceStable legacyLess allProcs).filter (fun p => !(p.Name == "concat"))

/-- The closure passed to sort.SliceStable in the extension loop of run. -/
def extensionLess (extension : String) (fnA fnB : Proc) : Bool :=
  if extension == "pgcrypto" then
    if fnA.Name == "digest" && fnB.Name == "digest" && fnA.ArgTypes.length == 2 &&
        fnA.ArgTypes[0]? == some "text" then true
    else false
  else false

/-- The sort of the extension loop: the list handed to writeFormattedGo as Procs. -/
def sortExtensionProcs (extension : String) (procs : List Proc) : List Proc :=
  SliceStable (extensionLess extension) procs

/-- The pair type of main.go. -/
structure extensionPair where
  Name : String
  Func : String
deriving DecidableEq

/-- The fixed list of extensions of main.go. -/
def extensions : List String :=
  ["adminpack", "amcheck", "btree_gin", "btree_gist", "citext", "cube", "dblink",
    "earthdistance", "file_fdw", "fuzzystrmatch", "hstore", "intagg", "intarray", "isn", "lo",
    "ltree", "pageinspect", "pg_buffercache", "pg_freespacemap", "pg_prewarm",
    "pg_stat_statements", "pg_trgm", "pg_visibility", "pgcrypto", "pgrowlocks", "pgstattuple",
    "postgres_fdw", "seg", "sslinfo", "tablefunc", "tcn", "unaccent", "uuid-ossp", "xml2"]

/-- In run: name := strings.Replace(extension, "-", "_", -1). -/
def extensionName (extension : String) : String :=
  String.mk (Replace extension.data ['-'] ['_'])

/-- In run: funcName is the concatenation of strings.Title(part) over the parts of
strings.Split(name, "_"). -/
def funcName (u : UnicodeTables) (extension : String) : String :=
  String.mk
    ((Split (extensionName extension).data ['_']).foldl (fun acc part => acc ++ Title u part) [])

/-- In run: filepath.Join(dir, "contrib", name+".go"), kept as its list of elements. -/
def extensionPath (dir : String) (extension : String) : List String :=
  [dir, "contrib", extensionName extension ++ ".go"]

/-- What the extension loop of run gets from outside, per extension: the answers of the
database and of writeFormattedGo (template, formatter and file system). The extensions of
the fixed list are pairwise distinct, so each function is asked once per extension. -/
structure World where
  /-- Result of conn.Exec for CREATE EXTENSION IF NOT EXISTS: the error, if any. -/
  createExtension : String → Option String
  /-- Result of conn.Query with extensionFuncs followed by scanProcs (scanProcs is not
  among the source files; what it returns is taken as given). -/
  queryProcs : String → Except String (List Proc)
  /-- Result of writeFormattedGo for a context and a destination: the error, if any. -/
  writeFormattedGo : tmplCtx → List String → Option String

/-- State of the extension loop: the pairs recorded in loaded, the files written so far
and the log lines. -/
structure LoopState where
  loaded : List extensionPair
  written : List (List String × tmplCtx)
  logged : List String

/-- The context that the extension loop hands to writeFormattedGo for an extension. -/
def extensionCtx (u : UnicodeTables) (extension : String) (procs : List Proc) : tmplCtx :=
  { Pkg := "contrib", SchemaName := "pg_catalog", GenFnName := funcName u extension,
    Procs := sortExtensionProcs extension procs, Relations := [] }

/-- One iteration of the extension loop of run. An error ends run. -/
def extensionStep (u : UnicodeTables) (w : World) (dir : String) (st : LoopState)
    (extension : String) : Except String LoopState :=
  match w.createExtension extension with
  | some err => .error ("error creating " ++ extension ++ ": " ++ err)
  | none =>
    match w.queryProcs extension with
    | .error err => .error err
    | .ok procs =>
      if procs.length = 0 then
        .ok { st with logged := st.logged ++ ["no functions in " ++ extension ++ ", skipping"] }
      else
        match w.writeFormattedGo (extensionCtx u extension procs) (extensionPath dir extension) with
        | some err => .error ("error generating extension " ++ extension ++ ": " ++ err)
        | none =>
          .ok { st with
            loaded := st.loaded ++ [{ Name := extension, Func := funcName u extension }]
            written := st.written ++
              [(extensionPath dir extension, extensionCtx u extension procs)] }

/-- The extension loop of run over a list of extensions: the state reached and the error
that ended the loop, if any. -/
def extensionLoop (u : UnicodeTables) (w : World) (dir : String) :
    List String → LoopState → LoopState × Option String
  | [], st => (st, none)
  | extension :: rest, st =>
    match extensionStep u w dir st extension with
    | .ok st2 => extensionLoop u w dir rest st2
    | .error err => (st, some err)

/-- The list of pairs that run has recorded when the extension loop ends. -/
def recordedPairs (u : UnicodeTables) (w : World) (dir : String) : List extensionPair :=
  (extensionLoop u w dir extensions ⟨[], [], []⟩).1.loaded

/-- The switch statement of the function loadExtension that loaderFuncTmpl renders for a
list of pairs: one case per pair, in order, returning the schema built by the constructor
of the matching case (here: the name of that constructor), and nil after the switch. -/
def switchCases : List extensionPair → String → Option String
  | [], _ => none
  | p :: rest, name => if name = p.Name then some p.Func else switchCases rest name

/-- The function loadExtension of the file that run renders from loaderFuncTmpl for a list
of pairs, when that file is a Go file that compiles. The template imports the package
contrib unconditionally and mentions it only inside the cases, and Go admits no repeated
case constant in a switch: for an empty list (contrib imported and not used) and for a
list with a repeated name the rendered file does not compile and there is no function
(none). -/
def loadExtension (loaded : List extensionPair) : Option (String → Option String) :=
  if loaded = [] then none
  else if (loaded.map (fun p => p.Name)).Nodup then some (switchCases loaded)
  else none

/-- The text of loaderFuncTmpl up to the opening brace of the switch. -/
def loaderHead : String :=
  "\n// Code generated by sqlc-pg-gen. DO NOT EDIT.\n\npackage postgresql\n\n" ++
  "import (\n\t\"github.com/sharpvik/sqlc/internal/engine/postgresql/contrib\"\n" ++
  "\t\"github.com/sharpvik/sqlc/internal/sql/catalog\"\n)\n\n" ++
  "func loadExtension(name string) *catalog.Schema \x7b\n\tswitch name \x7b"

/-- The text that executing loaderFuncTmpl on a list of pairs gives, before format.Source:
the range action emits one case per pair and its trim markers remove the white space
before it and before its end. -/
def renderLoader (loaded : List extensionPair) : String :=
  loaderHead ++
    String.join (loaded.map (fun p =>
      "\n\tcase \"" ++ p.Name ++ "\":\n\t\treturn contrib." ++ p.Func ++ "()")) ++
    "\n\t\x7d\n\treturn nil\n\x7d\n"

/-- A database in which every extension installs and reports no visible function, and a
file system on which every write succeeds. -/
def quietWorld : World :=
  { createExtension := fun _ => none
    queryProcs := fun _ => .ok []
    writeFormattedGo := fun _ _ => none }

/-! ## The constructor name in the words of the spec -/

/-- The segments of an identifier between its separator characters. -/
def segmentsOn (isSep : Char → Bool) : List Char → List (List Char)
  | [] => [[]]
  | c :: cs =>
    if isSep c then [] :: segmentsOn isSep cs
    else
      match segmentsOn isSep cs with
      | [] => [[c]]
      | seg :: rest => (c :: seg) :: rest

/-- A segment with its first letter upper-cased and the rest unchanged. -/
def capitalized : List Char → List Char
  | [] => []
  | c :: cs => c.toUpper :: cs

/-- The constructor name as the spec words it: the capitalized segments, joined. -/
def specFuncName (extension : String) : String :=
  String.mk ((segmentsOn (fun c => c = '-' ∨ c = '_') extension.data).map capitalized).flatten

/-! ## Definitions used in the proofs -/

/-- The index found by the binary search of the general case of symMerge_func. -/
def symStart (less : α → α → Bool) (data : List α) (a m b : Nat) : Nat :=
  searchLoop (fun c => !lessAt less data ((a + b) / 2 + m - 1 - c) c)
    (if (a + b) / 2 < m then (a + b) / 2 + m - b else a)
    (if (a + b) / 2 < m then (a + b) / 2 else m)

/-- The slice after the guarded rotation of the general case of symMerge_func. -/
def symRot (data : List α) (s m e : Nat) : List α :=
  if h : s < m ∧ m < e then rotate_func data s m e h else data

/-- The first guarded recursive call of symMerge_func. -/
def symLeft (less : α → α → Bool) (d1 : List α) (a s mid : Nat) : List α :=
  if a < s ∧ s < mid then symMerge_func less d1 a s mid else d1

/-- The second guarded recursive call of symMerge_func. -/
def symRight (less : α → α → Bool) (d2 : List α) (mid e b : Nat) : List α :=
  if mid < e ∧ e < b then symMerge_func less d2 mid e b else d2

/-- Where the inner loop of insertionSort_func stops when it starts at index m with lower
bound a: the scan goes down from j while Less(m-th element, element j-1). -/
def target (less : α → α → Bool) (data : List α) (a m : Nat) : Nat → Nat
  | 0 => 0
  | j + 1 => if a < j + 1 ∧ lessAt less data m j = true then target less data a m j else j + 1

/-- A comparator of the override kind: Less(x, y) holds exactly when x is designated and y
belongs to the group of x. -/
def Designating (less : α → α → Bool) (des : α → Bool) (grp : α → Nat) : Prop :=
  ∀ x y, less x y = (des x && (grp x == grp y))

/-- Whether the element at index i is designated (false outside the slice). -/
def desAt (des : α → Bool) (l : List α) (i : Nat) : Bool :=
  match l[i]? with
  | some x => des x
  | none => false

/-- The group of the element at index i. -/
def grpAt (grp : α → Nat) (l : List α) (i : Nat) : Option Nat :=
  (l[i]?).map grp

/-- No pair of indices of data[a:b] is out of order: never Less(later, earlier). -/
def NoInv (less : α → α → Bool) (l : List α) (a b : Nat) : Prop :=
  ∀ i j, a ≤ i → i < j → j < b → lessAt less l j i = false

/-- The group of every designated element occupies consecutive indices. -/
def Contig (des : α → Bool) (grp : α → Nat) (l : List α) : Prop :=
  ∀ q i k j, desAt des l q = true → i ≤ k → k ≤ j → grpAt grp l i = grpAt grp l q →
    grpAt grp l j = grpAt grp l q → grpAt grp l k = grpAt grp l q

/-- Each group holds at most one designated element. -/
def Uniq (des : α → Bool) (grp : α → Nat) (l : List α) : Prop :=
  ∀ i j, desAt des l i = true → desAt des l j = true → grpAt grp l i = grpAt grp l j → i = j

/-- Index map of the move of the element at index m down to index t. -/
def sig (t m p : Nat) : Nat :=
  if p < t ∨ m < p then p else if p = t then m else p - 1

/-- What an operation of the sort on data[a:b] establishes. -/
structure Step (less : α → α → Bool) (des : α → Bool) (grp : α → Nat) (a b : Nat)
    (l l2 : List α) : Prop where
  len : l2.length = l.length
  frame : ∀ p, p < a ∨ b ≤ p → l2[p]? = l[p]?
  contig : Contig des grp l2
  uniq : Uniq des grp l2
  noinv : NoInv less l2 a b
  nondes : l2.filter (fun x => !des x) = l.filter (fun x => !des x)

/-- Every block of B consecutive indices starting at a multiple of B is free of inversions. -/
def Blocked (less : α → α → Bool) (l : List α) (B n : Nat) : Prop :=
  ∀ c, B ∣ c → NoInv less l c (min (c + B) n)

/-- The designated overload of lower: its only argument type is text. -/
def isLowerText (p : Proc) : Bool :=
  p.Name == "lower" && p.ArgTypes.length == 1 && p.ArgTypes[0]? == some "text"

/-- The designated overload of generate_series: two arguments, the first one numeric. -/
def isSeriesNumeric (p : Proc) : Bool :=
  p.Name == "generate_series" && p.ArgTypes.length == 2 && p.ArgTypes[0]? == some "numeric"

/-- The procs that the legacy comparator puts in front. -/
def legacyDes (p : Proc) : Bool := isLowerText p || isSeriesNumeric p

/-- The name groups the legacy comparator looks at. -/
def legacyGrp (p : Proc) : Nat :=
  if p.Name = "lower" then 1 else if p.Name = "generate_series" then 2 else 0

/-- All procs with the given name stand next to each other in the list. -/
def Adjacent (name : String) (l : List Proc) : Prop :=
  ∃ pre run post, l = pre ++ run ++ post ∧ (∀ p ∈ run, p.Name = name) ∧
    (∀ p ∈ pre, p.Name ≠ name) ∧ (∀ p ∈ post, p.Name ≠ name)

/-- Sample procs for the concrete inputs below. -/
def lowerBytea : Proc := ⟨"lower", ["bytea"], [""], [false], ["i"], "bytea"⟩

/-- Sample proc. -/
def lowerChar : Proc := ⟨"lower", ["character"], [""], [false], ["i"], "character"⟩

/-- Sample proc. -/
def lowerText : Proc := ⟨"lower", ["text"], [""], [false], ["i"], "text"⟩

/-- Sample proc. -/
def lengthText : Proc := ⟨"length", ["text"], [""], [false], ["i"], "integer"⟩

/-- Sample proc. -/
def absInt : Proc := ⟨"abs", ["integer"], [""], [false], ["i"], "integer"⟩

/-- Sample proc. -/
def concatAny : Proc := ⟨"concat", ["any"], [""], [false], ["v"], "text"⟩

/-- Sample proc. -/
def seriesInt : Proc :=
  ⟨"generate_series", ["integer", "integer"], ["", ""], [false, false], ["i", "i"], "integer"⟩

/-- Sample proc. -/
def seriesBig : Proc :=
  ⟨"generate_series", ["bigint", "bigint"], ["", ""], [false, false], ["i", "i"], "bigint"⟩

/-- Sample proc. -/
def seriesNumeric : Proc :=
  ⟨"generate_series", ["numeric", "numeric"], ["", ""], [false, false], ["i", "i"], "numeric"⟩

/-- A name-ordered list of 26 procs whose lower overloads straddle the first block
boundary of the sort. -/
def sampleCatalog : List Proc :=
  List.replicate 18 absInt ++ [concatAny, lowerBytea, lowerChar, lowerText] ++
    [seriesInt, seriesBig, seriesNumeric, lengthText]

/-- What the loop keeps true of its state: every recorded pair belongs to an extension of
the list all whose introspection returned procs and whose file was written, and every
written file belongs to a recorded pair. -/
def LoopInv (u : UnicodeTables) (w : World) (dir : String) (all : List String)
    (st : LoopState) : Prop :=
  (∀ p ∈ st.loaded, p.Name ∈ all ∧ p.Func = funcName u p.Name ∧
    (∃ procs, w.queryProcs p.Name = .ok procs ∧ procs ≠ []) ∧
    ∃ f ∈ st.written, f.1 = extensionPath dir p.Name) ∧
  (∀ f ∈ st.written, ∃ p ∈ st.loaded, f.1 = extensionPath dir p.Name)

/-- A database in which every extension reports the one function f(text), and a file
system on which every write succeeds. -/
def busyWorld : World :=
  { createExtension := fun _ => none
    queryProcs := fun _ => .ok [⟨"f", ["text"], [""], [false], ["i"], "text"⟩]
    writeFormattedGo := fun _ _ => none }

/-! ## Every operation of the sort permutes the slice -/

theorem cons_set_perm (x y : α) : ∀ (t : List α) (j : Nat), t[j]? = some y →
    (y :: t.set j x).Perm (x :: t)
  | [], j, h => by simp at h
  | b :: t, 0, h => by
    simp only [List.getElem?_cons_zero, Option.some.injEq] at h
    subst h
    exact List.Perm.swap _ _ _
  | b :: t, j + 1, h => by
    simp only [List.getElem?_cons_succ] at h
    have ih := cons_set_perm x y t j h
    simp only [List.set_cons_succ]
    exact ((List.Perm.swap b y _).trans (ih.cons b)).trans (List.Perm.swap x b _)

theorem set_set_perm_lt (x y : α) : ∀ (l : List α) (i j : Nat), i < j →
    l[i]? = some x → l[j]? = some y → ((l.set i y).set j x).Perm l
  | [], i, j, _, h, _ => by simp at h
  | a :: t, 0, j + 1, _, hi, hj => by
    simp only [List.getElem?_cons_zero, Option.some.injEq] at hi
    simp only [List.getElem?_cons_succ] at hj
    subst hi
    simpa using cons_set_perm a y t j hj
  | a :: t, i + 1, j + 1, hlt, hi, hj => by
    simp only [List.getElem?_cons_succ] at hi hj
    simpa using (set_set_perm_lt x y t i j (by omega) hi hj).cons a

theorem swap_perm (data : List α) (i j : Nat) : (swap data i j).Perm data := by
  unfold swap
  cases hi : data[i]? with
  | none => simp
  | some x =>
    cases hj : data[j]? with
    | none => simp
    | some y =>
      simp only
      rcases Nat.lt_trichotomy i j with h | h | h
      · exact set_set_perm_lt x y data i j h hi hj
      · subst h
        have hxy : x = y := by simpa [hi] using hj
        subst hxy
        have he : (data.set i x).set i x = data := by
          apply List.ext_getElem?
          intro n
          simp only [List.getElem?_set, List.length_set]
          by_cases hn : i = n
          · subst hn
            have hlt : i < data.length := (List.getElem?_eq_some_iff.mp hi).1
            simp [hlt, hi]
          · simp [hn]
        rw [he]
      · have hc : (data.set i y).set j x = (data.set j x).set i y :=
          List.set_comm y x data (by omega)
        rw [hc]
        exact set_set_perm_lt y x data j i h hj hi

theorem foldl_perm {β : Type} (f : List α → β → List α) (hf : ∀ d b, (f d b).Perm d) :
    ∀ (bs : List β) (data : List α), (bs.foldl f data).Perm data
  | [], data => by simp
  | b :: bs, data => by
    simp only [List.foldl_cons]
    exact (foldl_perm f hf bs (f data b)).trans (hf data b)

theorem insertionInner_perm (less : α → α → Bool) (a : Nat) :
    ∀ (j : Nat) (data : List α), (insertionInner less a j data).Perm data
  | 0, data => by simp [insertionInner]
  | j + 1, data => by
    unfold insertionInner
    split
    · exact (insertionInner_perm less a j _).trans (swap_perm data (j + 1) j)
    · exact List.Perm.refl _

theorem insertionSort_perm (less : α → α → Bool) (data : List α) (a b : Nat) :
    (insertionSort_func less data a b).Perm data :=
  foldl_perm _ (fun d i => insertionInner_perm less a i d) _ data

theorem swapRange_perm (data : List α) (a b n : Nat) : (swapRange_func data a b n).Perm data :=
  foldl_perm _ (fun d i => swap_perm d (a + i) (b + i)) _ data

theorem rotateLoop_perm (data : List α) (m i j : Nat) (hi : 0 < i) (hj : 0 < j) :
    (rotateLoop data m i j hi hj).1.Perm data := by
  induction data, m, i, j, hi, hj using rotateLoop.induct with
  | case1 data m i hi hj => rw [rotateLoop]; simp
  | case2 data m i j hi hj hne hlt ih =>
    rw [rotateLoop]; simp only [hne, hlt, dite_true, dite_false, ↓reduceDIte]
    exact ih.trans (swapRange_perm _ _ _ _)
  | case3 data m i j hi hj hne hlt ih =>
    rw [rotateLoop]; simp only [hne, hlt, dite_true, dite_false, ↓reduceDIte]
    exact ih.trans (swapRange_perm _ _ _ _)

theorem rotate_perm (data : List α) (a m b : Nat) (h : a < m ∧ m < b) :
    (rotate_func data a m b h).Perm data :=
  (swapRange_perm _ _ _ _).trans (rotateLoop_perm _ _ _ _ _ _)

theorem swapUp_perm (data : List α) (a i : Nat) : (swapUp data a i).Perm data :=
  foldl_perm _ (fun d k => swap_perm d k (k + 1)) _ data

theorem swapDown_perm (i : Nat) : ∀ (k : Nat) (data : List α), (swapDown i k data).Perm data
  | 0, data => by simp [swapDown]
  | k + 1, data => by
    unfold swapDown
    split
    · exact (swapDown_perm i k _).trans (swap_perm data (k + 1) k)
    · exact List.Perm.refl _

theorem symMerge_func_eq (less : α → α → Bool) (data : List α) (a m b : Nat)
    (h1 : ¬ m - a = 1) (h2 : ¬ b - m = 1) :
    symMerge_func less data a m b =
      symRight less
        (symLeft less (symRot data (symStart less data a m b) m
            ((a + b) / 2 + m - symStart less data a m b))
          a (symStart less data a m b) ((a + b) / 2))
        ((a + b) / 2) ((a + b) / 2 + m - symStart less data a m b) b := by
  rw [symMerge_func]
  simp only [h1, h2, if_false, symRight, symLeft, symRot, symStart]

theorem symMerge_perm_aux (less : α → α → Bool) : ∀ (k : Nat) (data : List α) (a m b : Nat),
    b - a < k → (symMerge_func less data a m b).Perm data := by
  intro k
  induction k with
  | zero => intro data a m b hk; omega
  | succ k ih =>
    intro data a m b hk
    by_cases h1 : m - a = 1
    · rw [symMerge_func]; simp only [h1, if_true]; exact swapUp_perm _ _ _
    by_cases h2 : b - m = 1
    · rw [symMerge_func]; simp only [h1, h2, if_true, if_false]; exact swapDown_perm _ _ _
    rw [symMerge_func_eq less data a m b h1 h2]
    have hrot : ∀ s e, (symRot data s m e).Perm data := by
      intro s e
      unfold symRot
      split
      · exact rotate_perm _ _ _ _ _
      · exact List.Perm.refl _
    have hleft : ∀ d s, (symLeft less d a s ((a + b) / 2)).Perm d := by
      intro d s
      unfold symLeft
      split
      · exact ih _ _ _ _ (by omega)
      · exact List.Perm.refl _
    have hright : ∀ d e, (symRight less d ((a + b) / 2) e b).Perm d := by
      intro d e
      unfold symRight
      split
      · exact ih _ _ _ _ (by omega)
      · exact List.Perm.refl _
    exact ((hright _ _).trans (hleft _ _)).trans (hrot _ _)

theorem symMerge_perm (less : α → α → Bool) (data : List α) (a m b : Nat) :
    (symMerge_func less data a m b).Perm data :=
  symMerge_perm_aux less (b - a + 1) data a m b (by omega)

theorem insertionBlocks_perm (less : α → α → Bool) (n : Nat) (data : List α) (a b : Nat) :
    (insertionBlocks less n data a b).1.Perm data := by
  induction data, a, b using insertionBlocks.induct less n with
  | case1 data a b hb ih =>
    rw [insertionBlocks]; simp only [hb, if_true]
    exact ih.trans (insertionSort_perm _ _ _ _)
  | case2 data a b hb => rw [insertionBlocks]; simp [hb]

theorem mergePass_perm (less : α → α → Bool) (n blockSize : Nat) (hbs : 0 < blockSize)
    (data : List α) (a b : Nat) : (mergePass less n blockSize hbs data a b).1.Perm data := by
  induction data, a, b using mergePass.induct less n blockSize hbs with
  | case1 data a b hb ih =>
    rw [mergePass]; simp only [hb, if_true]
    exact ih.trans (symMerge_perm _ _ _ _ _)
  | case2 data a b hb => rw [mergePass]; simp [hb]

theorem mergeRounds_perm (less : α → α → Bool) (n : Nat) (data : List α) (blockSize : Nat)
    (hbs : 0 < blockSize) : (mergeRounds less n data blockSize hbs).Perm data := by
  induction data, blockSize, hbs using mergeRounds.induct less n with
  | case1 data blockSize hbs hlt r d ih =>
    rw [mergeRounds]; simp only [hlt, if_true]
    refine ih.trans ?_
    show d.Perm data
    have hr : r.1.Perm data := mergePass_perm _ _ _ _ _ _ _
    by_cases h : r.2 + blockSize < n
    · have : d = symMerge_func less r.1 r.2 (r.2 + blockSize) n := by simp [d, h]
      rw [this]; exact (symMerge_perm _ _ _ _ _).trans hr
    · have : d = r.1 := by simp [d, h]
      rw [this]; exact hr
  | case2 data blockSize hbs hlt => rw [mergeRounds]; simp [hlt]

theorem stable_perm (less : α → α → Bool) (data : List α) (n : Nat) :
    (stable_func less data n).Perm data :=
  ((mergeRounds_perm _ _ _ _ _).trans (insertionSort_perm _ _ _ _)).trans
    (insertionBlocks_perm _ _ _ _ _)

theorem SliceStable_perm (less : α → α → Bool) (x : List α) : (SliceStable less x).Perm x :=
  stable_perm less x x.length

/-! ## Index-wise description of the elementary moves -/

theorem swap_length (data : List α) (i j : Nat) : (swap data i j).length = data.length :=
  (swap_perm data i j).length_eq

theorem swapDown_length (i k : Nat) (data : List α) : (swapDown i k data).length = data.length :=
  (swapDown_perm i k data).length_eq

theorem swap_getElem? (data : List α) (i j p : Nat) (hi : i < data.length)
    (hj : j < data.length) :
    (swap data i j)[p]? = if p = j then data[i]? else if p = i then data[j]? else data[p]? := by
  unfold swap
  rw [List.getElem?_eq_getElem hi, List.getElem?_eq_getElem hj]
  simp only [List.getElem?_set, List.length_set]
  split_ifs <;> first | rfl | omega | (exfalso; omega) | (congr 1; omega) | skip
  all_goals (subst_vars; first | rfl | (exfalso; omega) | simp)

theorem swapDown_getElem? (i : Nat) : ∀ (k : Nat) (data : List α) (p : Nat), i ≤ k →
    k < data.length →
    (swapDown i k data)[p]? =
      if p < i ∨ k < p then data[p]? else if p = i then data[k]? else data[p - 1]?
  | 0, data, p, hik, _ => by
    have : i = 0 := by omega
    subst this
    unfold swapDown
    by_cases hp : p = 0
    · subst hp; simp
    · have : 0 < p := by omega
      simp [this]
  | k + 1, data, p, hik, hk => by
    unfold swapDown
    by_cases h : i < k + 1
    · simp only [h, if_true]
      rw [swapDown_getElem? i k _ p (by omega) (by rw [swap_length]; omega)]
      simp only [swap_getElem? data (k + 1) k _ hk (by omega)]
      by_cases h1 : p < i
      · have e1 : ¬ p = k := by omega
        have e2 : ¬ p = k + 1 := by omega
        simp [h1, e1, e2]
      · by_cases h2 : k + 1 < p
        · have e0 : k < p := by omega
          have e1 : ¬ p = k := by omega
          have e2 : ¬ p = k + 1 := by omega
          simp [h2, e0, e1, e2]
        · by_cases h3 : p = k + 1
          · subst h3
            have e1 : ¬ k + 1 < i := by omega
            have e2 : ¬ k + 1 = i := by omega
            simp [e1, e2]
          · have e0 : ¬ k < p := by omega
            have e3 : ¬ (p < i ∨ k + 1 < p) := by omega
            have e4 : ¬ (p < i ∨ k < p) := by omega
            simp only [e3, e4, if_false]
            by_cases h4 : p = i
            · simp [h4]
            · have e5 : ¬ p - 1 = k := by omega
              have e6 : ¬ p - 1 = k + 1 := by omega
              simp [h4, e5, e6]
    · have hi : i = k + 1 := by omega
      subst hi
      simp only [h, if_false]
      by_cases h1 : p < k + 1 ∨ k + 1 < p
      · simp [h1]
      · have : p = k + 1 := by omega
        subst this
        simp

theorem target_le (less : α → α → Bool) (data : List α) (a m : Nat) :
    ∀ j, target less data a m j ≤ j
  | 0 => by simp [target]
  | j + 1 => by
    unfold target
    split
    · have := target_le less data a m j; omega
    · exact Nat.le_refl _

theorem target_ge (less : α → α → Bool) (data : List α) (a m : Nat) :
    ∀ j, a ≤ j → a ≤ target less data a m j
  | 0, h => by simp [target, h]
  | j + 1, h => by
    unfold target
    split
    · next hc => exact target_ge less data a m j (by omega)
    · exact h

theorem target_less (less : α → α → Bool) (data : List α) (a m : Nat) :
    ∀ j k, target less data a m j ≤ k → k < j → lessAt less data m k = true
  | 0, k, _, h => by omega
  | j + 1, k, h1, h2 => by
    unfold target at h1
    split at h1
    · next hc =>
      by_cases hk : k = j
      · subst hk; exact hc.2
      · exact target_less less data a m j k h1 (by omega)
    · omega

theorem target_stop (less : α → α → Bool) (data : List α) (a m : Nat) :
    ∀ j, a < target less data a m j →
      lessAt less data m (target less data a m j - 1) = false
  | 0, h => by simp [target] at h
  | j + 1, h => by
    unfold target at h ⊢
    split
    · next hc =>
      simp only [hc, and_self, if_true] at h
      exact target_stop less data a m j h
    · next hc =>
      simp only [hc, if_false] at h
      simp only [Nat.add_sub_cancel]
      by_cases hl : lessAt less data m j = true
      · exact absurd ⟨h, hl⟩ hc
      · simpa using hl

/-- The scan is determined by its two properties. -/
theorem target_eq (less : α → α → Bool) (data : List α) (a m j t : Nat) (hat : a ≤ t)
    (htj : t ≤ j) (h1 : ∀ k, t ≤ k → k < j → lessAt less data m k = true)
    (h2 : a < t → lessAt less data m (t - 1) = false) : target less data a m j = t := by
  induction j with
  | zero => simp [target]; omega
  | succ j ih =>
    unfold target
    by_cases hc : a < j + 1 ∧ lessAt less data m j = true
    · simp only [hc, and_self, if_true]
      by_cases ht : t = j + 1
      · subst ht
        have := h2 hc.1
        simp only [Nat.add_sub_cancel] at this
        rw [hc.2] at this
        cases this
      · exact ih (by omega) (fun k hk1 hk2 => h1 k hk1 (by omega))
    · simp only [hc, if_false]
      by_cases ht : t = j + 1
      · exact ht.symm
      · exfalso
        apply hc
        exact ⟨by omega, h1 j (by omega) (by omega)⟩

theorem lessAt_eq (less : α → α → Bool) (d1 d2 : List α) (i j i2 j2 : Nat)
    (hi : d1[i]? = d2[i2]?) (hj : d1[j]? = d2[j2]?) :
    lessAt less d1 i j = lessAt less d2 i2 j2 := by
  unfold lessAt
  rw [hi, hj]

theorem swap_swapDown (i m : Nat) (data : List α) (him : i + 1 ≤ m) (hm : m < data.length) :
    swap (swapDown (i + 1) m data) (i + 1) i = swapDown i m data := by
  apply List.ext_getElem?
  intro p
  have hl := swapDown_length (i + 1) m data
  rw [swap_getElem? _ _ _ _ (by omega) (by omega)]
  simp only [swapDown_getElem? _ m data _ him hm, swapDown_getElem? i m data p (by omega) hm]
  split_ifs <;> first | rfl | omega | (exfalso; omega) | (congr 1; omega)

theorem insertionInner_aux (less : α → α → Bool) (a m : Nat) (data : List α)
    (hm : m < data.length) : ∀ j, j ≤ m →
    insertionInner less a j (swapDown j m data) = swapDown (target less data a m j) m data
  | 0, _ => by simp [insertionInner, target]
  | j + 1, hj => by
    unfold insertionInner target
    have hl : lessAt less (swapDown (j + 1) m data) (j + 1) j = lessAt less data m j := by
      apply lessAt_eq
      · rw [swapDown_getElem? _ m data _ hj hm]
        split_ifs <;> first | rfl | omega | (exfalso; omega) | (congr 1; omega)
      · rw [swapDown_getElem? _ m data _ hj hm]
        split_ifs <;> first | rfl | omega | (exfalso; omega) | (congr 1; omega)
    rw [hl]
    by_cases hc : a < j + 1 ∧ lessAt less data m j = true
    · simp only [hc, and_self, if_true]
      rw [swap_swapDown j m data hj hm]
      exact insertionInner_aux less a m data hm j (by omega)
    · simp only [hc, if_false]

theorem swapDown_self (m : Nat) (data : List α) (hm : m < data.length) :
    swapDown m m data = data := by
  apply List.ext_getElem?
  intro p
  rw [swapDown_getElem? m m data p (Nat.le_refl _) hm]
  by_cases h : p < m ∨ m < p
  · simp [h]
  · have : p = m := by omega
    subst this; simp

/-- The inner loop of insertionSort_func moves the element at index m down to the index
where the scan stops, shifting the elements in between up by one. -/
theorem insertionInner_eq (less : α → α → Bool) (a m : Nat) (data : List α)
    (hm : m < data.length) :
    insertionInner less a m data = swapDown (target less data a m m) m data := by
  have := insertionInner_aux less a m data hm m (Nat.le_refl _)
  rwa [swapDown_self m data hm] at this

/-- Result of a binary search whose condition holds exactly below t. -/
theorem searchLoop_eq (cond : Nat → Bool) (t : Nat) : ∀ (k i j : Nat), j - i < k →
    i ≤ t → t ≤ j → (∀ h, i ≤ h → h < t → cond h = true) →
    (∀ h, t ≤ h → h < j → cond h = false) → searchLoop cond i j = t := by
  intro k
  induction k with
  | zero => intro i j hk; omega
  | succ k ih =>
    intro i j hk hit htj h1 h2
    rw [searchLoop]
    by_cases hij : i < j
    · simp only [hij, dite_true]
      by_cases hc : cond ((i + j) / 2) = true
      · simp only [hc, if_true]
        have hlt : (i + j) / 2 < t := by
          by_contra hge
          have := h2 ((i + j) / 2) (by omega) (by omega)
          rw [hc] at this; cases this
        exact ih _ _ (by omega) (by omega) htj (fun h hh1 hh2 => h1 h (by omega) hh2) h2
      · simp only [hc, if_false]
        have hge : t ≤ (i + j) / 2 := by
          by_contra hlt
          exact hc (h1 ((i + j) / 2) (by omega) (by omega))
        exact ih _ _ (by omega) hit hge h1 (fun h hh1 hh2 => h2 h hh1 (by omega))
    · simp only [hij, dite_false]
      omega

section Designated
variable {less : α → α → Bool} {des : α → Bool} {grp : α → Nat}

/-! ## Comparators that put one designated element in front of its group -/

theorem swapDown_sig (t m : Nat) (l : List α) (p : Nat) (htm : t ≤ m) (hm : m < l.length) :
    (swapDown t m l)[p]? = l[sig t m p]? := by
  rw [swapDown_getElem? t m l p htm hm]
  unfold sig
  split_ifs <;> rfl

theorem lessAt_iff {less : α → α → Bool} {des : α → Bool} {grp : α → Nat}
    (hless : Designating less des grp) (l : List α) (j i : Nat) :
    lessAt less l j i = true ↔
      desAt des l j = true ∧ grpAt grp l j = grpAt grp l i ∧ i < l.length := by
  unfold lessAt desAt grpAt
  cases hj : l[j]? with
  | none => simp
  | some y =>
    cases hi : l[i]? with
    | none =>
      have : l.length ≤ i := List.getElem?_eq_none_iff.mp hi
      simp
    | some x =>
      have : i < l.length := (List.getElem?_eq_some_iff.mp hi).1
      simp [hless y x, this]

theorem lessAt_false_iff {less : α → α → Bool} {des : α → Bool} {grp : α → Nat}
    (hless : Designating less des grp) (l : List α) (j i : Nat) (hi : i < l.length) :
    lessAt less l j i = false ↔
      ¬ (desAt des l j = true ∧ grpAt grp l j = grpAt grp l i) := by
  rw [← Bool.not_eq_true, lessAt_iff hless]
  constructor
  · intro h hc; exact h ⟨hc.1, hc.2, hi⟩
  · intro h hc; exact h ⟨hc.1, hc.2.1⟩

theorem desAt_swapDown (des : α → Bool) (t m : Nat) (l : List α) (p : Nat) (htm : t ≤ m)
    (hm : m < l.length) : desAt des (swapDown t m l) p = desAt des l (sig t m p) := by
  unfold desAt; rw [swapDown_sig t m l p htm hm]

theorem grpAt_swapDown (grp : α → Nat) (t m : Nat) (l : List α) (p : Nat) (htm : t ≤ m)
    (hm : m < l.length) : grpAt grp (swapDown t m l) p = grpAt grp l (sig t m p) := by
  unfold grpAt; rw [swapDown_sig t m l p htm hm]

theorem NoInv_mono {less : α → α → Bool} {l : List α} {a b a2 b2 : Nat}
    (h : NoInv less l a b) (ha : a ≤ a2) (hb : b2 ≤ b) : NoInv less l a2 b2 :=
  fun i j h1 h2 h3 => h i j (by omega) h2 (by omega)

theorem NoInv_congr {less : α → α → Bool} {l l2 : List α} {a b : Nat}
    (h : NoInv less l a b) (hl : ∀ p, a ≤ p → p < b → l2[p]? = l[p]?) : NoInv less l2 a b := by
  intro i j h1 h2 h3
  rw [lessAt_eq less l2 l j i j i (hl j (by omega) h3) (hl i h1 (by omega))]
  exact h i j h1 h2 h3

/-- When the elements passed over all belong to the group of the moved element, the move
leaves the group of every index unchanged. -/
theorem grpAt_move (hless : Designating less des grp) (l : List α) (t m : Nat) (htm : t ≤ m)
    (hm : m < l.length) (h1 : ∀ k, t ≤ k → k < m → lessAt less l m k = true) (p : Nat) :
    grpAt grp l (sig t m p) = grpAt grp l p := by
  have hk : ∀ k, t ≤ k → k ≤ m → grpAt grp l k = grpAt grp l m := by
    intro k hk1 hk2
    by_cases hkm : k = m
    · rw [hkm]
    · exact (((lessAt_iff hless l m k).mp (h1 k hk1 (by omega))).2.1).symm
  unfold sig
  split_ifs with c1 c2
  · rfl
  · rw [c2]; exact (hk t (Nat.le_refl _) htm).symm
  · rw [hk (p - 1) (by omega) (by omega), hk p (by omega) (by omega)]

theorem sig_inj (t m i j : Nat) (htm : t ≤ m) (h : sig t m i = sig t m j) : i = j := by
  unfold sig at h
  split_ifs at h <;> omega

theorem Uniq_move (hless : Designating less des grp) (l : List α) (t m : Nat) (htm : t ≤ m)
    (hm : m < l.length) (h1 : ∀ k, t ≤ k → k < m → lessAt less l m k = true)
    (hU : Uniq des grp l) : Uniq des grp (swapDown t m l) := by
  intro i j hi hj hg
  rw [desAt_swapDown des t m l _ htm hm] at hi hj
  rw [grpAt_swapDown grp t m l _ htm hm, grpAt_swapDown grp t m l _ htm hm] at hg
  exact sig_inj t m i j htm (hU _ _ hi hj hg)

theorem Contig_move (hless : Designating less des grp) (l : List α) (t m : Nat) (htm : t ≤ m)
    (hm : m < l.length) (h1 : ∀ k, t ≤ k → k < m → lessAt less l m k = true)
    (hC : Contig des grp l) : Contig des grp (swapDown t m l) := by
  intro q i k j hq hik hkj hgi hgj
  rw [desAt_swapDown des t m l _ htm hm] at hq
  have e := fun p => (grpAt_swapDown grp t m l p htm hm).trans (grpAt_move hless l t m htm hm h1 p)
  rw [e] at hgi hgj ⊢
  rw [e q] at hgi hgj ⊢
  rw [← grpAt_move hless l t m htm hm h1 q] at hgi hgj ⊢
  exact hC _ i k j hq hik hkj hgi hgj

/-- No element of the left block is Less-preceded by an element of the right block other
than the first one of the right block. -/
theorem cross_false (hless : Designating less des grp) (l : List α) (m b : Nat)
    (hb : b ≤ l.length) (hC : Contig des grp l) (hR : NoInv less l m b) (i j : Nat)
    (him : i < m) (hmj : m < j) (hjb : j < b) : lessAt less l j i = false := by
  rw [lessAt_false_iff hless l j i (by omega)]
  rintro ⟨hd, hg⟩
  have hgm : grpAt grp l m = grpAt grp l j := hC j i m j hd (by omega) (by omega) hg.symm rfl
  have := hR m j (Nat.le_refl _) hmj hjb
  rw [lessAt_false_iff hless l j m (by omega)] at this
  exact this ⟨hd, hgm.symm⟩

/-- Moving the first element of the right block down to where the insertion scan stops
leaves the whole range free of inversions. -/
theorem NoInv_move (hless : Designating less des grp) (l : List α) (a t m b : Nat)
    (hat : a ≤ t) (htm : t ≤ m) (hmb : m < b) (hb : b ≤ l.length)
    (h1 : ∀ k, t ≤ k → k < m → lessAt less l m k = true)
    (h2 : a < t → lessAt less l m (t - 1) = false)
    (hC : Contig des grp l) (hU : Uniq des grp l)
    (hL : NoInv less l a m) (hR : NoInv less l m b) :
    NoInv less (swapDown t m l) a b := by
  have hm : m < l.length := by omega
  have hlen := swapDown_length t m l
  intro i j hai hij hjb
  rw [lessAt_false_iff hless _ j i (by omega)]
  rw [desAt_swapDown des t m l _ htm hm, grpAt_swapDown grp t m l _ htm hm,
    grpAt_swapDown grp t m l _ htm hm, grpAt_move hless l t m htm hm h1,
    grpAt_move hless l t m htm hm h1]
  rintro ⟨hd, hg⟩
  have hgk : ∀ k, t ≤ k → k < m → desAt des l m = true ∧ grpAt grp l m = grpAt grp l k := by
    intro k hk1 hk2
    have := (lessAt_iff hless l m k).mp (h1 k hk1 hk2)
    exact ⟨this.1, this.2.1⟩
  by_cases c1 : m < j
  · have e : sig t m j = j := by
      unfold sig
      split_ifs <;> omega
    rw [e] at hd
    by_cases c2 : m ≤ i
    · have := hR i j c2 hij hjb
      rw [lessAt_false_iff hless l j i (by omega)] at this
      exact this ⟨hd, hg⟩
    · have := cross_false hless l m b hb hC hR i j (by omega) c1 hjb
      rw [lessAt_false_iff hless l j i (by omega)] at this
      exact this ⟨hd, hg⟩
  · by_cases c2 : t < j
    · have e : sig t m j = j - 1 := by
        unfold sig
        split_ifs <;> omega
      rw [e] at hd
      have hk := hgk (j - 1) (by omega) (by omega)
      have := hU (j - 1) m hd hk.1 hk.2.symm
      omega
    · by_cases c3 : j = t
      · subst c3
        have e : sig j m j = m := by
          unfold sig
          split_ifs <;> omega
        rw [e] at hd
        have hgt : grpAt grp l j = grpAt grp l m := by
          by_cases hjm : j = m
          · rw [hjm]
          · exact (hgk j (Nat.le_refl _) (by omega)).2.symm
        have := h2 (by omega)
        rw [lessAt_false_iff hless l m (j - 1) (by omega)] at this
        apply this
        refine ⟨hd, ?_⟩
        have := hC m i (j - 1) m hd (by omega) (by omega) (hg.symm.trans hgt) rfl
        exact this.symm
      · have e : sig t m j = j := by
          unfold sig
          split_ifs <;> omega
        rw [e] at hd
        have := hL i j hai hij (by omega)
        rw [lessAt_false_iff hless l j i (by omega)] at this
        exact this ⟨hd, hg⟩

/-! ## The rotation by one and the two swap loops as moves -/

theorem swapRange_one (data : List α) (a b : Nat) : swapRange_func data a b 1 = swap data a b := by
  simp [swapRange_func, List.range_succ]

theorem swap_eq_swapDown (data : List α) (m : Nat) (h0 : 0 < m) (hm : m < data.length) :
    swap data (m - 1) m = swapDown (m - 1) m data := by
  apply List.ext_getElem?
  intro p
  rw [swap_getElem? _ _ _ _ (by omega) hm, swapDown_getElem? _ m data p (by omega) hm]
  split_ifs <;> first | rfl | omega | (exfalso; omega) | (congr 1; omega)

theorem swapDown_swap (data : List α) (s m : Nat) (hs : s + 1 ≤ m) (hm : m < data.length) :
    swapDown (s + 1) m (swap data s m) = swapDown s m data := by
  apply List.ext_getElem?
  intro p
  rw [swapDown_getElem? (s + 1) m _ p hs (by rw [swap_length]; exact hm),
    swapDown_getElem? s m data p (by omega) hm]
  simp only [swap_getElem? data s m _ (by omega) hm]
  split_ifs <;> first | rfl | omega | (exfalso; omega) | (congr 1; omega)

theorem swapDown_swapDown (data : List α) (t s m : Nat) (hts : t ≤ s) (hsm : s ≤ m)
    (hm : m < data.length) : swapDown t s (swapDown s m data) = swapDown t m data := by
  apply List.ext_getElem?
  intro p
  rw [swapDown_getElem? t s _ p hts (by rw [swapDown_length]; omega),
    swapDown_getElem? t m data p (by omega) hm]
  simp only [swapDown_getElem? s m data _ hsm hm]
  split_ifs <;> first | rfl | omega | (exfalso; omega) | (congr 1; omega)

theorem rotateLoop_one (m : Nat) : ∀ (i : Nat) (data : List α) (j : Nat) (hi : 0 < i)
    (hj : 0 < j), j = 1 → i ≤ m → m < data.length →
    swapRange_func (rotateLoop data m i j hi hj).1 (m - (rotateLoop data m i j hi hj).2) m
      (rotateLoop data m i j hi hj).2 = swapDown (m - i) m data := by
  intro i
  induction i with
  | zero => intro data j hi; omega
  | succ i ih =>
    intro data j hi hj hj1 him hm
    subst hj1
    rw [rotateLoop]
    by_cases h : i + 1 = 1
    · simp only [h, dite_true]
      have : i = 0 := by omega
      subst this
      rw [swapRange_one]
      exact swap_eq_swapDown data m (by omega) hm
    · have hgt : 1 < i + 1 := by omega
      simp only [h, hgt, dite_true, dite_false]
      have e : i + 1 - 1 = i := by omega
      have key := ih (swapRange_func data (m - (i + 1)) m 1) 1 (by omega) (by omega) rfl
        (by omega) (by rw [swapRange_one, swap_length]; exact hm)
      simp only [e]
      rw [key, swapRange_one]
      have e2 : m - i = (m - (i + 1)) + 1 := by omega
      rw [e2]
      exact swapDown_swap data (m - (i + 1)) m (by omega) hm

theorem rotate_one (data : List α) (s m : Nat) (h : s < m ∧ m < m + 1) (hm : m < data.length) :
    rotate_func data s m (m + 1) h = swapDown s m data := by
  unfold rotate_func
  have := rotateLoop_one m (m - s) data (m + 1 - m) (by omega) (by omega) (by omega) (by omega) hm
  simp only [this]
  congr 1
  omega

theorem swapUp_none (data : List α) (a : Nat) : swapUp data a (a + 1) = data := by
  simp [swapUp]

theorem swapUp_one (data : List α) (a : Nat) (ha : a + 1 < data.length) :
    swapUp data a (a + 2) = swapDown a (a + 1) data := by
  have e : a + 2 - 1 - a = 1 := by omega
  simp only [swapUp, e, List.range'_one, List.foldl_cons, List.foldl_nil]
  exact swap_eq_swapDown data (a + 1) (by omega) ha

/-- Below the index where the scan stops, no element is Less-preceded by the scanned one. -/
theorem target_false (hless : Designating less des grp) (l : List α) (a m : Nat)
    (hm : m < l.length) (hC : Contig des grp l) (k : Nat) (hak : a ≤ k)
    (hk : k < target less l a m m) : lessAt less l m k = false := by
  have hle := target_le less l a m m
  have hs := target_stop less l a m m (by omega)
  rw [lessAt_false_iff hless l m _ (by omega)] at hs ⊢
  rintro ⟨hd, hg⟩
  apply hs
  refine ⟨hd, ?_⟩
  exact (hC m k (target less l a m m - 1) m hd (by omega) (by omega) hg.symm rfl).symm

/-- Value of the binary search of the general case of symMerge_func when the only element
of the right block that may precede elements of the left block is its first one. -/
theorem symStart_eq (l : List α) (a m b t : Nat) (ha : a + 2 ≤ m) (hb : m + 2 ≤ b)
    (hatm : a ≤ t ∧ t ≤ m)
    (hF : ∀ k, a ≤ k → k < m → (lessAt less l m k = true ↔ t ≤ k))
    (hX : ∀ i j, a ≤ i → i < m → m < j → j < b → lessAt less l j i = false) :
    symStart less l a m b =
      if t < (a + b) / 2 ∧ (a + b) / 2 ≤ m then (a + b) / 2 - 1
      else if (a + b) / 2 < m then (a + b) / 2 else m := by
  unfold symStart
  have hcond : ∀ c, a ≤ c → c < m → c < (a + b) / 2 → (a + b) / 2 + m - 1 - c < b →
      ((!lessAt less l ((a + b) / 2 + m - 1 - c) c) = true ↔
        ¬ (c = (a + b) / 2 - 1 ∧ t ≤ c)) := by
    intro c hc1 hc2 hc4 hc3
    by_cases hcm : (a + b) / 2 + m - 1 - c = m
    · rw [hcm]
      have := hF c hc1 hc2
      have e : c = (a + b) / 2 - 1 := by omega
      constructor
      · intro h hh
        rw [this.mpr hh.2] at h
        cases h
      · intro h
        cases hl : lessAt less l m c with
        | false => rfl
        | true => exact absurd ⟨e, this.mp hl⟩ h
    · have hj : m < (a + b) / 2 + m - 1 - c ∨ (a + b) / 2 + m - 1 - c < m := by omega
      rcases hj with hj | hj
      · rw [hX c _ hc1 hc2 hj hc3]
        constructor
        · intro _ hh; omega
        · intro _; rfl
      · omega
  by_cases c1 : t < (a + b) / 2 ∧ (a + b) / 2 ≤ m
  · simp only [c1, and_self, if_true]
    apply searchLoop_eq _ _ (m + 1)
    · split_ifs <;> omega
    · split_ifs <;> omega
    · split_ifs <;> omega
    · intro c h1 h2
      have hca : a ≤ c := by
        split_ifs at h1 <;> omega
      refine (hcond c hca (by omega) (by omega) ?_).mpr (by omega)
      split_ifs at h1 <;> omega
    · intro c h1 h2
      have hc : c = (a + b) / 2 - 1 := by
        split_ifs at h2 <;> omega
      cases hv : (!lessAt less l ((a + b) / 2 + m - 1 - c) c) with
      | false => rfl
      | true =>
        exfalso
        exact (hcond c (by omega) (by omega) (by omega) (by omega)).mp hv ⟨hc, by omega⟩
  · simp only [c1, if_false]
    by_cases c2 : (a + b) / 2 < m
    · simp only [c2, if_true]
      apply searchLoop_eq _ _ (m + 1)
      · omega
      · omega
      · exact Nat.le_refl _
      · intro c h1 h2
        exact (hcond c (by omega) (by omega) (by omega) (by omega)).mpr (by omega)
      · intro c h1 h2; omega
    · simp only [c2, if_false]
      apply searchLoop_eq _ _ (m + 1)
      · omega
      · omega
      · exact Nat.le_refl _
      · intro c h1 h2
        exact (hcond c (by omega) (by omega) (by omega) (by omega)).mpr (by omega)
      · intro c h1 h2; omega

/-- For a designating comparator, on a slice whose designated groups are contiguous with
one designated element each, symMerge_func of two inversion-free blocks does what one
insertion step for the first element of the right block does. -/
theorem symMerge_spec (hless : Designating less des grp) : ∀ (k : Nat) (l : List α)
    (a m b : Nat), b - a < k → a < m → m < b → b ≤ l.length → Contig des grp l →
    Uniq des grp l → NoInv less l a m → NoInv less l m b →
    symMerge_func less l a m b = swapDown (target less l a m m) m l := by
  intro k
  induction k with
  | zero => intro l a m b hk; omega
  | succ k ih =>
    intro l a m b hk ham hmb hb hC hU hL hR
    have hm : m < l.length := by omega
    have ht1 := target_le less l a m m
    have ht0 := target_ge less l a m m (by omega)
    have hF2 := target_less less l a m m
    have hF3 := target_false hless l a m hm hC
    have hX := cross_false hless l m b hb hC hR
    generalize target less l a m m = t at ht1 ht0 hF2 hF3 ⊢
    have hF : ∀ k, a ≤ k → k < m → (lessAt less l m k = true ↔ t ≤ k) := by
      intro k hk1 hk2
      constructor
      · intro h
        by_contra hc
        rw [hF3 k hk1 (by omega)] at h
        cases h
      · intro h; exact hF2 k h hk2
    by_cases c1 : m - a = 1
    · rw [symMerge_func]
      simp only [c1, if_true]
      by_cases ct : t = m
      · have hs : searchLoop (fun h => lessAt less l h a) m b = m := by
          apply searchLoop_eq _ _ (b + 1) _ _ (by omega) (Nat.le_refl _) (by omega)
          · intro h h1 h2; omega
          · intro h h1 h2
            by_cases hh : h = m
            · subst hh
              exact hF3 a (Nat.le_refl _) (by omega)
            · exact hX a h (by omega) (by omega) h2
        rw [hs, ct]
        have hma : m = a + 1 := by omega
        rw [hma, swapUp_none, swapDown_self _ _ (by omega)]
      · have hta : t = a := by omega
        have hs : searchLoop (fun h => lessAt less l h a) m b = m + 1 := by
          apply searchLoop_eq _ _ (b + 1) _ _ (by omega) (by omega) (by omega)
          · intro h h1 h2
            have : h = m := by omega
            subst this
            exact (hF a (Nat.le_refl _) (by omega)).mpr (by omega)
          · intro h h1 h2
            exact hX a h (by omega) (by omega) h2
        rw [hs, hta]
        have hma : m = a + 1 := by omega
        rw [hma]
        exact swapUp_one l a (by omega)
    by_cases c2 : b - m = 1
    · rw [symMerge_func]
      simp only [c1, c2, if_true, if_false]
      have hs : searchLoop (fun h => !lessAt less l m h) a m = t := by
        apply searchLoop_eq _ _ (m + 1) _ _ (by omega) ht0 ht1
        · intro h h1 h2
          rw [hF3 h h1 h2]; rfl
        · intro h h1 h2
          rw [hF2 h h1 h2]; rfl
      rw [hs]
    rw [symMerge_func_eq less l a m b c1 c2,
      symStart_eq l a m b t (by omega) (by omega) ⟨ht0, ht1⟩ hF
        (fun i j h1 h2 h3 h4 => hX i j h2 h3 h4)]
    by_cases o1 : t < (a + b) / 2 ∧ (a + b) / 2 ≤ m
    · -- the first element of the right block is rotated to index mid - 1
      simp only [o1, and_self, if_true]
      have hmid : a + 2 ≤ (a + b) / 2 := by omega
      have e1 : (a + b) / 2 + m - ((a + b) / 2 - 1) = m + 1 := by omega
      rw [e1]
      have hs1 : ∀ k, (a + b) / 2 - 1 ≤ k → k < m → lessAt less l m k = true :=
        fun k h1 h2 => hF2 k (by omega) h2
      have hrot : symRot l ((a + b) / 2 - 1) m (m + 1) = swapDown ((a + b) / 2 - 1) m l := by
        unfold symRot
        have : (a + b) / 2 - 1 < m ∧ m < m + 1 := by omega
        simp only [this, and_self, dite_true]
        exact rotate_one l _ m this hm
      rw [hrot]
      have hlen1 := swapDown_length ((a + b) / 2 - 1) m l
      have hC1 := Contig_move hless l _ m (by omega) hm hs1 hC
      have hU1 := Uniq_move hless l _ m (by omega) hm hs1 hU
      have hN1 : NoInv less (swapDown ((a + b) / 2 - 1) m l) ((a + b) / 2 - 1) b :=
        NoInv_move hless l _ _ m b (Nat.le_refl _) (by omega) hmb hb hs1
          (fun h => absurd h (Nat.lt_irrefl _)) hC hU (NoInv_mono hL (by omega) (Nat.le_refl _)) hR
      have hfr1 : ∀ p, p < (a + b) / 2 - 1 →
          (swapDown ((a + b) / 2 - 1) m l)[p]? = l[p]? := by
        intro p hp
        rw [swapDown_getElem? _ m l p (by omega) hm]
        simp [hp]
      have hL1 : NoInv less (swapDown ((a + b) / 2 - 1) m l) a ((a + b) / 2 - 1) :=
        NoInv_congr (NoInv_mono hL (Nat.le_refl _) (by omega)) (fun p _ h2 => hfr1 p h2)
      have hleft : symLeft less (swapDown ((a + b) / 2 - 1) m l) a ((a + b) / 2 - 1)
          ((a + b) / 2) = swapDown t m l := by
        unfold symLeft
        have : a < (a + b) / 2 - 1 ∧ (a + b) / 2 - 1 < (a + b) / 2 := by omega
        simp only [this, and_self, if_true]
        rw [ih _ a _ _ (by omega) (by omega) (by omega) (by omega) hC1 hU1 hL1
          (NoInv_mono hN1 (Nat.le_refl _) (by omega))]
        have ht : target less (swapDown ((a + b) / 2 - 1) m l) a ((a + b) / 2 - 1)
            ((a + b) / 2 - 1) = t := by
          apply target_eq _ _ _ _ _ _ ht0 (by omega)
          · intro k h1 h2
            rw [lessAt_eq less _ l _ k m k _ (hfr1 k h2)]
            · exact hF2 k h1 (by omega)
            · rw [swapDown_getElem? _ m l _ (by omega) hm]
              split_ifs <;> first | rfl | omega | (exfalso; omega)
          · intro h
            rw [lessAt_eq less _ l _ (t - 1) m (t - 1) _ (hfr1 _ (by omega))]
            · exact hF3 _ (by omega) (by omega)
            · rw [swapDown_getElem? _ m l _ (by omega) hm]
              split_ifs <;> first | rfl | omega | (exfalso; omega)
        rw [ht]
        exact swapDown_swapDown l t _ m (by omega) (by omega) hm
      rw [hleft]
      -- the second call finds its range already free of inversions
      have hs2 : ∀ k, t ≤ k → k < m → lessAt less l m k = true := hF2
      have hlen2 := swapDown_length t m l
      have hC2 := Contig_move hless l t m ht1 hm hs2 hC
      have hU2 := Uniq_move hless l t m ht1 hm hs2 hU
      have hN2 : NoInv less (swapDown t m l) a b :=
        NoInv_move hless l a t m b ht0 ht1 hmb hb hs2
          (fun h => hF3 _ (by omega) (by omega)) hC hU hL hR
      unfold symRight
      have : (a + b) / 2 < m + 1 ∧ m + 1 < b := by omega
      simp only [this, and_self, if_true]
      rw [ih _ _ _ _ (by omega) (by omega) (by omega) (by omega) hC2 hU2
        (NoInv_mono hN2 (by omega) (by omega)) (NoInv_mono hN2 (by omega) (Nat.le_refl _))]
      have ht : target less (swapDown t m l) ((a + b) / 2) (m + 1) (m + 1) = m + 1 := by
        apply target_eq _ _ _ _ _ _ (by omega) (Nat.le_refl _)
        · intro k h1 h2; omega
        · intro _
          exact hN2 m (m + 1) (by omega) (by omega) (by omega)
      rw [ht, swapDown_self _ _ (by omega)]
    · simp only [o1, if_false]
      by_cases o2 : (a + b) / 2 < m
      · -- nothing moves at this level; the right half is merged
        simp only [o2, if_true]
        have e1 : (a + b) / 2 + m - (a + b) / 2 = m := by omega
        rw [e1]
        have hrot : symRot l ((a + b) / 2) m m = l := by
          unfold symRot
          have : ¬ ((a + b) / 2 < m ∧ m < m) := by omega
          simp only [this, dite_false]
        have hleft : symLeft less l a ((a + b) / 2) ((a + b) / 2) = l := by
          unfold symLeft
          have : ¬ (a < (a + b) / 2 ∧ (a + b) / 2 < (a + b) / 2) := by omega
          simp only [this, if_false]
        rw [hrot, hleft]
        unfold symRight
        have : (a + b) / 2 < m ∧ m < b := by omega
        simp only [this, and_self, if_true]
        rw [ih l _ m b (by omega) (by omega) hmb hb hC hU (NoInv_mono hL (by omega) (Nat.le_refl _)) hR]
        congr 1
        apply target_eq _ _ _ _ _ _ (by omega) ht1 hF2
        intro h
        exact hF3 _ (by omega) (by omega)
      · -- nothing moves at this level; the left half is merged
        simp only [o2, if_false]
        have e1 : (a + b) / 2 + m - m = (a + b) / 2 := by omega
        rw [e1]
        have hrot : symRot l m m ((a + b) / 2) = l := by
          unfold symRot
          have : ¬ (m < m ∧ m < (a + b) / 2) := by omega
          simp only [this, dite_false]
        rw [hrot]
        have hright : ∀ d, symRight less d ((a + b) / 2) ((a + b) / 2) b = d := by
          intro d
          unfold symRight
          have : ¬ ((a + b) / 2 < (a + b) / 2 ∧ (a + b) / 2 < b) := by omega
          simp only [this, if_false]
        rw [hright]
        unfold symLeft
        by_cases o3 : m < (a + b) / 2
        · have : a < m ∧ m < (a + b) / 2 := ⟨ham, o3⟩
          simp only [this, and_self, if_true]
          rw [ih l a m _ (by omega) ham o3 (by omega) hC hU hL (NoInv_mono hR (Nat.le_refl _) (by omega))]
          congr 1
          exact target_eq _ _ _ _ _ _ ht0 ht1 hF2 (fun h => hF3 _ (by omega) (by omega))
        · have : ¬ (a < m ∧ m < (a + b) / 2) := by omega
          simp only [this, if_false]
          have : t = m := by omega
          rw [this, swapDown_self _ _ hm]

/-! ## A move written with append, and what it does to a filter -/

theorem swapDown_eq_append (l : List α) (t m : Nat) (htm : t ≤ m) (hm : m < l.length) :
    swapDown t m l = l.take t ++ l[m] :: ((l.drop t).take (m - t) ++ l.drop (m + 1)) := by
  apply List.ext_getElem?
  intro p
  rw [swapDown_getElem? t m l p htm hm]
  by_cases h1 : p < t
  · simp only [h1, true_or, if_true]
    rw [List.getElem?_append_left (by simp; omega), List.getElem?_take_of_lt h1]
  · rw [List.getElem?_append_right (by simp; omega)]
    have e1 : (List.take t l).length = t := by simp; omega
    rw [e1]
    by_cases h2 : p = t
    · subst h2
      have h3 : ¬ (p < p ∨ m < p) := by omega
      simp only [h3, if_false, if_true, Nat.sub_self, List.getElem?_cons_zero]
      exact List.getElem?_eq_getElem hm
    · obtain ⟨q, hq⟩ : ∃ q, p - t = q + 1 := ⟨p - t - 1, by omega⟩
      rw [hq, List.getElem?_cons_succ]
      by_cases h3 : m < p
      · simp only [h3, or_true, if_true]
        rw [List.getElem?_append_right (by simp; omega)]
        simp only [List.length_take, List.length_drop, List.getElem?_drop]
        congr 1
        omega
      · have : ¬ (p < t ∨ m < p) := by omega
        simp only [this, h2, if_false]
        rw [List.getElem?_append_left (by simp; omega), List.getElem?_take_of_lt (by omega),
          List.getElem?_drop]
        congr 1
        omega

theorem eq_append_at (l : List α) (t m : Nat) (htm : t ≤ m) (hm : m < l.length) :
    l = l.take t ++ ((l.drop t).take (m - t) ++ l[m] :: l.drop (m + 1)) := by
  have h1 : l.drop m = l[m] :: l.drop (m + 1) := List.drop_eq_getElem_cons hm
  have h2 : (l.drop t).drop (m - t) = l.drop m := by
    rw [List.drop_drop]; congr 1; omega
  rw [← h1, ← h2, List.take_append_drop, List.take_append_drop]

/-- A move of an element that a filter drops does not change the filtered slice. -/
theorem filter_swapDown (p : α → Bool) (l : List α) (t m : Nat) (htm : t ≤ m)
    (hm : m < l.length) (hp : p l[m] = false) :
    (swapDown t m l).filter p = l.filter p := by
  have h1 := swapDown_eq_append l t m htm hm
  have h2 := eq_append_at l t m htm hm
  generalize l.take t = A at h1 h2
  generalize (l.drop t).take (m - t) = M at h1 h2
  generalize l.drop (m + 1) = C at h1 h2
  rw [h1]
  conv => rhs; rw [h2]
  simp [List.filter_cons, hp]

/-! ## The insertion blocks and the merge rounds -/

theorem desAt_getElem (l : List α) (m : Nat) (hm : m < l.length)
    (h : desAt des l m = true) : des l[m] = true := by
  unfold desAt at h
  rw [List.getElem?_eq_getElem hm] at h
  exact h

theorem step_move (hless : Designating less des grp) (l : List α) (a m b : Nat) (ham : a ≤ m)
    (hmb : m < b) (hb : b ≤ l.length) (hC : Contig des grp l) (hU : Uniq des grp l)
    (hL : NoInv less l a m) (hR : NoInv less l m b) :
    Step less des grp a b l (swapDown (target less l a m m) m l) := by
  have hm : m < l.length := by omega
  have ht1 := target_le less l a m m
  have ht0 := target_ge less l a m m ham
  have hF2 := target_less less l a m m
  have hst := target_stop less l a m m
  generalize target less l a m m = t at ht1 ht0 hF2 hst
  refine ⟨swapDown_length t m l, ?_, Contig_move hless l t m ht1 hm hF2 hC,
    Uniq_move hless l t m ht1 hm hF2 hU,
    NoInv_move hless l a t m b ht0 ht1 hmb hb hF2 hst hC hU hL hR, ?_⟩
  · intro p hp
    rw [swapDown_getElem? t m l p ht1 hm]
    have : p < t ∨ m < p := by omega
    simp [this]
  · by_cases htm : t = m
    · rw [htm, swapDown_self m l hm]
    · apply filter_swapDown _ l t m ht1 hm
      have := ((lessAt_iff hless l m t).mp (hF2 t (Nat.le_refl _) (by omega))).1
      simp [desAt_getElem l m hm this]

theorem Step.refl_of (l : List α) (a b : Nat) (hC : Contig des grp l) (hU : Uniq des grp l)
    (hN : NoInv less l a b) : Step less des grp a b l l :=
  ⟨rfl, fun _ _ => rfl, hC, hU, hN, rfl⟩

theorem insertion_steps (hless : Designating less des grp) (a : Nat) :
    ∀ (n i : Nat) (l : List α), a < i → i + n ≤ l.length → Contig des grp l →
    Uniq des grp l → NoInv less l a i →
    Step less des grp a (i + n) l
      ((List.range' i n).foldl (fun d i => insertionInner less a i d) l) := by
  intro n
  induction n with
  | zero =>
    intro i l _ _ hC hU hN
    simpa using Step.refl_of l a i hC hU hN
  | succ n ih =>
    intro i l hai hin hC hU hN
    have hi : i < l.length := by omega
    have h1 : Step less des grp a (i + 1) l (insertionInner less a i l) := by
      rw [insertionInner_eq less a i l hi]
      exact step_move hless l a i (i + 1) (by omega) (by omega) (by omega) hC hU hN
        (fun p q h1 h2 h3 => by omega)
    have h2 := ih (i + 1) (insertionInner less a i l) (by omega) (by rw [h1.len]; omega)
      h1.contig h1.uniq h1.noinv
    have e : i + 1 + n = i + (n + 1) := by omega
    rw [e] at h2
    simp only [List.range'_succ, List.foldl_cons]
    exact ⟨h2.len.trans h1.len,
      fun p hp => (h2.frame p (by omega)).trans (h1.frame p (by omega)),
      h2.contig, h2.uniq, h2.noinv, h2.nondes.trans h1.nondes⟩

theorem insertionSort_spec (hless : Designating less des grp) (l : List α) (a b : Nat)
    (hb : b ≤ l.length) (hC : Contig des grp l) (hU : Uniq des grp l) :
    Step less des grp a b l (insertionSort_func less l a b) := by
  unfold insertionSort_func
  by_cases h : a + 1 ≤ b
  · have := insertion_steps hless a (b - (a + 1)) (a + 1) l (by omega) (by omega) hC hU
      (fun p q h1 h2 h3 => by omega)
    have e : a + 1 + (b - (a + 1)) = b := by omega
    rwa [e] at this
  · have e : b - (a + 1) = 0 := by omega
    rw [e]
    exact Step.refl_of l a b hC hU (fun p q h1 h2 h3 => by omega)

theorem insertionBlocks_spec (hless : Designating less des grp) (n : Nat) :
    ∀ (l : List α) (a b : Nat), b = a + 20 → 20 ∣ a → l.length = n → Contig des grp l →
    Uniq des grp l → (∀ c, 20 ∣ c → c < a → NoInv less l c (c + 20)) →
    (insertionBlocks less n l a b).1.length = n ∧
    Contig des grp (insertionBlocks less n l a b).1 ∧
    Uniq des grp (insertionBlocks less n l a b).1 ∧
    20 ∣ (insertionBlocks less n l a b).2 ∧ n < (insertionBlocks less n l a b).2 + 20 ∧
    (∀ c, 20 ∣ c → c < (insertionBlocks less n l a b).2 →
      NoInv less (insertionBlocks less n l a b).1 c (c + 20)) ∧
    (insertionBlocks less n l a b).1.filter (fun x => !des x) = l.filter (fun x => !des x) := by
  intro l a b
  induction l, a, b using insertionBlocks.induct less n with
  | case1 l a b hbn ih =>
    intro hb ha hl hC hU hI
    rw [insertionBlocks, if_pos hbn]
    have hs := insertionSort_spec hless l a b (by omega) hC hU
    have := ih rfl (by omega) (hs.len.trans hl) hs.contig hs.uniq (by
      intro c hc hcb
      by_cases hca : c < a
      · exact NoInv_congr (hI c hc hca) (fun p _ h2 => hs.frame p (by omega))
      · have : c = a := by omega
        subst this
        rw [← hb]; exact hs.noinv)
    refine ⟨this.1, this.2.1, this.2.2.1, this.2.2.2.1, this.2.2.2.2.1, this.2.2.2.2.2.1, ?_⟩
    exact this.2.2.2.2.2.2.trans hs.nondes
  | case2 l a b hbn =>
    intro hb ha hl hC hU hI
    rw [insertionBlocks, if_neg hbn]
    exact ⟨hl, hC, hU, ha, by omega, hI, rfl⟩

theorem dvd_step {d c a : Nat} (hc : d ∣ c) (ha : d ∣ a) (h : c < a) : c + d ≤ a := by
  obtain ⟨x, rfl⟩ := hc
  obtain ⟨y, rfl⟩ := ha
  have hd : 0 < d := by
    rcases Nat.eq_zero_or_pos d with h0 | h0
    · subst h0; simp at h
    · exact h0
  have hxy : x < y := Nat.lt_of_mul_lt_mul_left h
  calc d * x + d = d * (x + 1) := by ring
    _ ≤ d * y := Nat.mul_le_mul_left d hxy

theorem mergePass_spec (hless : Designating less des grp) (n B : Nat) (hbs : 0 < B) :
    ∀ (l : List α) (a b : Nat), b = a + 2 * B → 2 * B ∣ a → l.length = n →
    Contig des grp l → Uniq des grp l →
    (∀ c, 2 * B ∣ c → c < a → NoInv less l c (c + 2 * B)) →
    (∀ c, B ∣ c → a ≤ c → NoInv less l c (min (c + B) n)) →
    (mergePass less n B hbs l a b).1.length = n ∧
    Contig des grp (mergePass less n B hbs l a b).1 ∧
    Uniq des grp (mergePass less n B hbs l a b).1 ∧
    2 * B ∣ (mergePass less n B hbs l a b).2 ∧ n < (mergePass less n B hbs l a b).2 + 2 * B ∧
    (∀ c, 2 * B ∣ c → c < (mergePass less n B hbs l a b).2 →
      NoInv less (mergePass less n B hbs l a b).1 c (c + 2 * B)) ∧
    (∀ c, B ∣ c → (mergePass less n B hbs l a b).2 ≤ c →
      NoInv less (mergePass less n B hbs l a b).1 c (min (c + B) n)) ∧
    (mergePass less n B hbs l a b).1.filter (fun x => !des x) = l.filter (fun x => !des x) := by
  intro l a b
  induction l, a, b using mergePass.induct less n B hbs with
  | case1 l a b hbn ih =>
    intro hb ha hl hC hU hI1 hI2
    rw [mergePass, if_pos hbn]
    have hBa : B ∣ a := Dvd.dvd.trans (Dvd.intro_left 2 rfl) ha
    have hL : NoInv less l a (a + B) := by
      have := hI2 a hBa (Nat.le_refl _)
      rwa [Nat.min_eq_left (by omega)] at this
    have hR : NoInv less l (a + B) b := by
      have := hI2 (a + B) (Dvd.dvd.add hBa (Nat.dvd_refl B)) (by omega)
      rw [Nat.min_eq_left (by omega)] at this
      have e : a + B + B = b := by omega
      rwa [e] at this
    have hs : Step less des grp a b l (symMerge_func less l a (a + B) b) := by
      rw [symMerge_spec hless (b - a + 1) l a (a + B) b (by omega) (by omega) (by omega)
        (by omega) hC hU hL hR]
      exact step_move hless l a (a + B) b (by omega) (by omega) (by omega) hC hU hL hR
    have hbd : 2 * B ∣ b := by
      rw [hb]; exact Dvd.dvd.add ha (Nat.dvd_refl _)
    have := ih rfl hbd (hs.len.trans hl) hs.contig hs.uniq (by
      intro c hc hcb
      by_cases hca : c < a
      · have := dvd_step hc ha hca
        exact NoInv_congr (hI1 c hc hca) (fun p _ h2 => hs.frame p (by omega))
      · have hac : c = a := by
          by_contra hne
          have := dvd_step ha hc (by omega)
          omega
        subst hac
        rw [← hb]; exact hs.noinv) (by
      intro c hc hbc
      exact NoInv_congr (hI2 c hc (by omega)) (fun p h1 _ => hs.frame p (by omega)))
    refine ⟨this.1, this.2.1, this.2.2.1, this.2.2.2.1, this.2.2.2.2.1, this.2.2.2.2.2.1,
      this.2.2.2.2.2.2.1, ?_⟩
    exact this.2.2.2.2.2.2.2.trans hs.nondes
  | case2 l a b hbn =>
    intro hb ha hl hC hU hI1 hI2
    rw [mergePass, if_neg hbn]
    exact ⟨hl, hC, hU, ha, by omega, hI1, hI2, rfl⟩

theorem mergeRounds_spec (hless : Designating less des grp) (n : Nat) :
    ∀ (l : List α) (B : Nat) (hbs : 0 < B), l.length = n → Contig des grp l →
    Uniq des grp l → Blocked less l B n →
    (mergeRounds less n l B hbs).length = n ∧ Contig des grp (mergeRounds less n l B hbs) ∧
    Uniq des grp (mergeRounds less n l B hbs) ∧ NoInv less (mergeRounds less n l B hbs) 0 n ∧
    (mergeRounds less n l B hbs).filter (fun x => !des x) = l.filter (fun x => !des x) := by
  intro l B hbs
  induction l, B, hbs using mergeRounds.induct less n with
  | case1 l B hbs hlt r d ih =>
    intro hl hC hU hBl
    rw [mergeRounds, if_pos hlt]
    have hp := mergePass_spec hless n B hbs l 0 (2 * B) (by omega) (Nat.dvd_zero _) hl hC hU
      (fun c _ h => absurd h (Nat.not_lt_zero c)) (fun c hc _ => hBl c hc)
    rw [show mergePass less n B hbs l 0 (2 * B) = r from rfl] at hp
    obtain ⟨hl1, hC1, hU1, hd1, hn1, hI1, hI2, hf1⟩ := hp
    have hBa : B ∣ r.2 := Dvd.dvd.trans (Dvd.intro_left 2 rfl) hd1
    have hd : Step less des grp r.2 n r.1 d := by
      by_cases ht : r.2 + B < n
      · have e : d = symMerge_func less r.1 r.2 (r.2 + B) n := by simp [d, ht]
        rw [e]
        have hL : NoInv less r.1 r.2 (r.2 + B) := by
          have := hI2 r.2 hBa (Nat.le_refl _)
          rwa [Nat.min_eq_left (by omega)] at this
        have hR : NoInv less r.1 (r.2 + B) n := by
          have := hI2 (r.2 + B) (Dvd.dvd.add hBa (Nat.dvd_refl B)) (by omega)
          rwa [Nat.min_eq_right (by omega)] at this
        rw [symMerge_spec hless (n - r.2 + 1) r.1 r.2 (r.2 + B) n (by omega) (by omega) ht
          (by omega) hC1 hU1 hL hR]
        exact step_move hless r.1 r.2 (r.2 + B) n (by omega) ht (by omega) hC1 hU1 hL hR
      · have e : d = r.1 := by simp [d, ht]
        rw [e]
        refine Step.refl_of r.1 r.2 n hC1 hU1 ?_
        exact NoInv_mono (hI2 r.2 hBa (Nat.le_refl _)) (Nat.le_refl _) (by
          rw [Nat.min_eq_right (by omega)])
    have hBl2 : Blocked less d (B * 2) n := by
      intro c hc
      rw [Nat.mul_comm] at hc
      have e2 : B * 2 = 2 * B := Nat.mul_comm _ _
      rw [e2]
      by_cases hca : c < r.2
      · have := dvd_step hc hd1 hca
        exact NoInv_congr (NoInv_mono (hI1 c hc hca) (Nat.le_refl _) (Nat.min_le_left _ _))
          (fun p _ h2 => hd.frame p (by omega))
      · by_cases hac : c = r.2
        · subst hac
          exact NoInv_mono hd.noinv (Nat.le_refl _) (Nat.min_le_right _ _)
        · have := dvd_step hd1 hc (by omega)
          intro i j h1 h2 h3
          have := Nat.min_le_right (c + 2 * B) n
          omega
    have := ih (hd.len.trans hl1) hd.contig hd.uniq hBl2
    refine ⟨this.1, this.2.1, this.2.2.1, this.2.2.2.1, ?_⟩
    exact this.2.2.2.2.trans (hd.nondes.trans hf1)
  | case2 l B hbs hlt =>
    intro hl hC hU hBl
    rw [mergeRounds, if_neg hlt]
    refine ⟨hl, hC, hU, ?_, rfl⟩
    have := hBl 0 (Nat.dvd_zero _)
    rwa [Nat.zero_add, Nat.min_eq_right (by omega)] at this

/-- For a designating comparator and a slice whose designated groups are contiguous with one
designated element each, sort.SliceStable leaves no pair with Less(later, earlier), keeps
contiguity, and keeps the order of the elements that are not designated. -/
theorem SliceStable_spec (hless : Designating less des grp) (l : List α)
    (hC : Contig des grp l) (hU : Uniq des grp l) :
    NoInv less (SliceStable less l) 0 l.length ∧
    (SliceStable less l).filter (fun x => !des x) = l.filter (fun x => !des x) ∧
    Contig des grp (SliceStable less l) ∧ Uniq des grp (SliceStable less l) := by
  unfold SliceStable stable_func
  obtain ⟨hl1, hC1, hU1, hd1, hn1, hI1, hf1⟩ :=
    insertionBlocks_spec hless l.length l 0 20 rfl (Nat.dvd_zero _) rfl hC hU
      (fun c _ h => absurd h (Nat.not_lt_zero c))
  generalize insertionBlocks less l.length l 0 20 = r at hl1 hC1 hU1 hd1 hn1 hI1 hf1
  have hs := insertionSort_spec hless r.1 r.2 l.length (by omega) hC1 hU1
  have hBl : Blocked less (insertionSort_func less r.1 r.2 l.length) 20 l.length := by
    intro c hc
    by_cases hca : c < r.2
    · exact NoInv_congr (NoInv_mono (hI1 c hc hca) (Nat.le_refl _) (Nat.min_le_left _ _))
        (fun p _ h2 => hs.frame p (by omega))
    · by_cases hac : c = r.2
      · subst hac
        exact NoInv_mono hs.noinv (Nat.le_refl _) (Nat.min_le_right _ _)
      · intro i j h1 h2 h3
        have := Nat.min_le_right (c + 20) l.length
        omega
  have := mergeRounds_spec hless l.length _ 20 (by decide) (hs.len.trans hl1) hs.contig
    hs.uniq hBl
  exact ⟨this.2.2.2.1, this.2.2.2.2.trans (hs.nondes.trans hf1), this.2.1, this.2.2.1⟩

end Designated

/-! ## The comparator of preserveLegacyCatalogBehavior as a designating comparator -/

theorem legacyLess_designating : Designating legacyLess legacyDes legacyGrp := by
  intro x y
  unfold legacyLess legacyDes legacyGrp isLowerText isSeriesNumeric
  have hne : ("lower" : String) ≠ "generate_series" := by decide
  by_cases h1 : x.Name = "lower"
  · have h1g : ¬ x.Name = "generate_series" := fun h => hne (h1.symm.trans h)
    by_cases h2 : y.Name = "lower"
    · by_cases h3 : x.ArgTypes.length = 1 ∧ x.ArgTypes[0]? = some "text"
      · simp [h1, h2, h3.1, h3.2]
      · rw [Bool.eq_iff_iff]
        simp [h1, h2, h1g]
    · by_cases h4 : y.Name = "generate_series"
      · simp [h1, h2, h4, h1g]
      · simp [h1, h2, h4, h1g]
  · by_cases h2 : x.Name = "generate_series"
    · by_cases h3 : y.Name = "generate_series"
      · have h3l : ¬ y.Name = "lower" := fun h => hne (h.symm.trans h3)
        by_cases h4 : x.ArgTypes.length = 2 ∧ x.ArgTypes[0]? = some "numeric"
        · simp [h1, h2, h3, h3l, h4.1, h4.2]
        · rw [Bool.eq_iff_iff]
          simp [h1, h2, h3, h3l]
      · by_cases h4 : y.Name = "lower"
        · simp [h1, h2, h3, h4]
        · simp [h1, h2, h3, h4]
    · simp [h1, h2]

theorem mem_of_getElem? {l : List α} {i : Nat} {a : α} (h : l[i]? = some a) : a ∈ l := by
  obtain ⟨hi, rfl⟩ := List.getElem?_eq_some_iff.mp h
  exact List.getElem_mem _

theorem adjacent_index (name : String) (l : List Proc) (h : Adjacent name l) (i k j : Nat)
    (x z : Proc) (hik : i ≤ k) (hkj : k ≤ j) (hi : l[i]? = some x) (hj : l[j]? = some z)
    (hx : x.Name = name) (hz : z.Name = name) : ∃ y, l[k]? = some y ∧ y.Name = name := by
  obtain ⟨pre, run, post, rfl, hrun, hpre, hpost⟩ := h
  have key : ∀ (p : Nat) (y : Proc), (pre ++ run ++ post)[p]? = some y → y.Name = name →
      pre.length ≤ p ∧ p < pre.length + run.length := by
    intro p y hp hy
    constructor
    · by_contra hlt
      rw [List.append_assoc, List.getElem?_append_left (by omega)] at hp
      exact hpre y (mem_of_getElem? hp) hy
    · by_contra hge
      rw [List.getElem?_append_right (by simp; omega)] at hp
      exact hpost y (mem_of_getElem? hp) hy
  have h1 := key i x hi hx
  have h2 := key j z hj hz
  have hk : k - pre.length < run.length := by omega
  refine ⟨run[k - pre.length], ?_, hrun _ (List.getElem_mem _)⟩
  rw [List.append_assoc, List.getElem?_append_right (by omega),
    List.getElem?_append_left hk, List.getElem?_eq_getElem hk]

theorem desAt_some {des : α → Bool} {l : List α} {q : Nat} (h : desAt des l q = true) :
    ∃ x, l[q]? = some x ∧ des x = true := by
  unfold desAt at h
  cases hq : l[q]? with
  | none => rw [hq] at h; cases h
  | some x => rw [hq] at h; exact ⟨x, rfl, h⟩

theorem grpAt_some {grp : α → Nat} {l : List α} {i : Nat} {g : Nat}
    (h : grpAt grp l i = some g) : ∃ x, l[i]? = some x ∧ grp x = g := by
  unfold grpAt at h
  cases hq : l[i]? with
  | none => rw [hq] at h; cases h
  | some x => rw [hq] at h; exact ⟨x, rfl, by simpa using h⟩

theorem legacyGrp_lower (p : Proc) : legacyGrp p = 1 ↔ p.Name = "lower" := by
  unfold legacyGrp
  split_ifs <;> simp [*]

theorem legacyGrp_series (p : Proc) : legacyGrp p = 2 ↔ p.Name = "generate_series" := by
  unfold legacyGrp
  have hne : ("generate_series" : String) ≠ "lower" := by decide
  split_ifs with h1 h2
  · simp [h1]
  · simp [h2]
  · simp [h2]

theorem legacyDes_grp (p : Proc) (h : legacyDes p = true) :
    (isLowerText p = true ∧ legacyGrp p = 1) ∨ (isSeriesNumeric p = true ∧ legacyGrp p = 2) := by
  unfold legacyDes at h
  rcases Bool.or_eq_true _ _ ▸ h with h1 | h1
  · left
    refine ⟨h1, (legacyGrp_lower p).mpr ?_⟩
    unfold isLowerText at h1
    simp at h1
    exact h1.1.1
  · right
    refine ⟨h1, (legacyGrp_series p).mpr ?_⟩
    unfold isSeriesNumeric at h1
    simp at h1
    exact h1.1.1

/-- Adjacent name groups make the designated groups contiguous. -/
theorem legacy_contig (l : List Proc) (hL : Adjacent "lower" l)
    (hG : Adjacent "generate_series" l) : Contig legacyDes legacyGrp l := by
  intro q i k j hq hik hkj hgi hgj
  obtain ⟨x, hx, hdx⟩ := desAt_some hq
  have hgq : grpAt legacyGrp l q = some (legacyGrp x) := by unfold grpAt; rw [hx]; rfl
  rw [hgq] at hgi hgj ⊢
  obtain ⟨xi, hxi, hgxi⟩ := grpAt_some hgi
  obtain ⟨xj, hxj, hgxj⟩ := grpAt_some hgj
  rcases legacyDes_grp x hdx with ⟨_, hg⟩ | ⟨_, hg⟩
  · rw [hg] at hgxi hgxj ⊢
    obtain ⟨y, hy, hyn⟩ := adjacent_index "lower" l hL i k j xi xj hik hkj hxi hxj
      ((legacyGrp_lower xi).mp hgxi) ((legacyGrp_lower xj).mp hgxj)
    unfold grpAt; rw [hy]
    simp [(legacyGrp_lower y).mpr hyn]
  · rw [hg] at hgxi hgxj ⊢
    obtain ⟨y, hy, hyn⟩ := adjacent_index "generate_series" l hG i k j xi xj hik hkj hxi hxj
      ((legacyGrp_series xi).mp hgxi) ((legacyGrp_series xj).mp hgxj)
    unfold grpAt; rw [hy]
    simp [(legacyGrp_series y).mpr hyn]

theorem two_le_countP (p : α → Bool) : ∀ (l : List α) (i j : Nat) (x y : α), i < j →
    l[i]? = some x → l[j]? = some y → p x = true → p y = true → 2 ≤ l.countP p
  | [], i, j, x, y, _, hi, _, _, _ => by simp at hi
  | a :: t, 0, j + 1, x, y, _, hi, hj, hx, hy => by
    simp only [List.getElem?_cons_zero, Option.some.injEq] at hi
    simp only [List.getElem?_cons_succ] at hj
    subst hi
    have : 0 < t.countP p := List.countP_pos_iff.mpr ⟨y, mem_of_getElem? hj, hy⟩
    rw [List.countP_cons_of_pos _ _ hx]
    omega
  | a :: t, i + 1, j + 1, x, y, hlt, hi, hj, hx, hy => by
    simp only [List.getElem?_cons_succ] at hi hj
    have := two_le_countP p t i j x y (by omega) hi hj hx hy
    have := List.countP_le_length p (l := [a])
    rw [List.countP_cons]
    omega

theorem countP_unique (p : α → Bool) (l : List α) (h : l.countP p ≤ 1) (i j : Nat) (x y : α)
    (hi : l[i]? = some x) (hj : l[j]? = some y) (hx : p x = true) (hy : p y = true) :
    i = j := by
  rcases Nat.lt_trichotomy i j with hlt | heq | hgt
  · have := two_le_countP p l i j x y hlt hi hj hx hy; omega
  · exact heq
  · have := two_le_countP p l j i y x hgt hj hi hy hx; omega

/-- At most one designated overload of each name makes the designated elements unique in
their groups. -/
theorem legacy_uniq (l : List Proc) (h1 : l.countP isLowerText ≤ 1)
    (h2 : l.countP isSeriesNumeric ≤ 1) : Uniq legacyDes legacyGrp l := by
  intro i j hi hj hg
  obtain ⟨x, hx, hdx⟩ := desAt_some hi
  obtain ⟨y, hy, hdy⟩ := desAt_some hj
  have hgx : grpAt legacyGrp l i = some (legacyGrp x) := by unfold grpAt; rw [hx]; rfl
  have hgy : grpAt legacyGrp l j = some (legacyGrp y) := by unfold grpAt; rw [hy]; rfl
  rw [hgx, hgy] at hg
  have hg2 : legacyGrp x = legacyGrp y := by simpa using hg
  rcases legacyDes_grp x hdx with ⟨hx1, hxg⟩ | ⟨hx1, hxg⟩ <;>
    rcases legacyDes_grp y hdy with ⟨hy1, hyg⟩ | ⟨hy1, hyg⟩
  · exact countP_unique _ l h1 i j x y hx hy hx1 hy1
  · omega
  · omega
  · exact countP_unique _ l h2 i j x y hx hy hx1 hy1

/-- In a slice without inversions, nothing of its group stands before a designated
element. -/
theorem noInv_split {less : α → α → Bool} {des : α → Bool} {grp : α → Nat}
    (hless : Designating less des grp) (s : List α) (hN : NoInv less s 0 s.length) (t : α)
    (ht : t ∈ s) (hd : des t = true) :
    ∃ A C, s = A ++ t :: C ∧ ∀ x ∈ A, grp x ≠ grp t := by
  obtain ⟨j, hj, hjt⟩ := List.getElem_of_mem ht
  refine ⟨s.take j, s.drop (j + 1), ?_, ?_⟩
  · rw [← hjt, ← List.drop_eq_getElem_cons hj, List.take_append_drop]
  · intro x hx hgx
    obtain ⟨i, hi, hix⟩ := List.getElem_of_mem hx
    have hij : i < j := by
      have := hi
      simp only [List.length_take] at this
      omega
    have hsi : s[i]? = some x := by
      rw [← hix, List.getElem_take, List.getElem?_eq_getElem]
    have hsj : s[j]? = some t := by rw [List.getElem?_eq_getElem hj, hjt]
    have := hN i j (Nat.zero_le _) hij hj
    unfold lessAt at this
    rw [hsi, hsj] at this
    simp only [hless t x, hd, Bool.true_and, beq_eq_false_iff_ne, ne_eq] at this
    exact this hgx.symm

theorem stable_small (less : α → α → Bool) (data : List α) (n : Nat) (h : n < 20) :
    stable_func less data n = insertionSort_func less data 0 n := by
  unfold stable_func
  have h1 : insertionBlocks less n data 0 20 = (data, 0) := by
    rw [insertionBlocks, if_neg (by omega)]
  rw [h1, mergeRounds, if_neg (by omega)]

/-- What the sort gives under the hypotheses on the input of preserveLegacyCatalogBehavior. -/
theorem legacy_sorted (l : List Proc) (hL : Adjacent "lower" l)
    (hG : Adjacent "generate_series" l) (h1 : l.countP isLowerText ≤ 1)
    (h2 : l.countP isSeriesNumeric ≤ 1) :
    NoInv legacyLess (SliceStable legacyLess l) 0 (SliceStable legacyLess l).length ∧
    (SliceStable legacyLess l).filter (fun x => !legacyDes x) =
      l.filter (fun x => !legacyDes x) := by
  have := SliceStable_spec legacyLess_designating l (legacy_contig l hL hG)
    (legacy_uniq l h1 h2)
  rw [(SliceStable_perm legacyLess l).length_eq]
  exact ⟨this.1, this.2.1⟩

theorem legacyDes_not_concat (t : Proc) (h : legacyDes t = true) :
    (!(t.Name == "concat")) = true := by
  rcases legacyDes_grp t h with ⟨_, hg⟩ | ⟨_, hg⟩
  · have := (legacyGrp_lower t).mp hg
    rw [this]; decide
  · have := (legacyGrp_series t).mp hg
    rw [this]; decide

/-- Under the hypotheses, the output splits at a designated overload with no proc of its
name before it. -/
theorem legacy_front (l : List Proc) (hL : Adjacent "lower" l)
    (hG : Adjacent "generate_series" l) (h1 : l.countP isLowerText ≤ 1)
    (h2 : l.countP isSeriesNumeric ≤ 1) (t : Proc) (ht : t ∈ l) (hd : legacyDes t = true) :
    ∃ A C, preserveLegacyCatalogBehavior l = A ++ t :: C ∧
      ∀ x ∈ A, legacyGrp x ≠ legacyGrp t := by
  have hs := (legacy_sorted l hL hG h1 h2).1
  have hts : t ∈ SliceStable legacyLess l := (SliceStable_perm legacyLess l).mem_iff.mpr ht
  obtain ⟨A, C, hAC, hA⟩ := noInv_split legacyLess_designating _ hs t hts hd
  refine ⟨A.filter (fun p => !(p.Name == "concat")), C.filter (fun p => !(p.Name == "concat")),
    ?_, ?_⟩
  · unfold preserveLegacyCatalogBehavior
    rw [hAC, List.filter_append, List.filter_cons]
    simp only [legacyDes_not_concat t hd, if_true]
  · intro x hx
    exact hA x (List.mem_filter.mp hx).1

theorem find_front (p : Proc → Bool) (A C : List Proc) (t : Proc) (hA : ∀ x ∈ A, p x = false)
    (ht : p t = true) : (A ++ t :: C).find? p = some t := by
  induction A with
  | nil => simp [List.find?_cons, ht]
  | cons a A ih =>
    have ha : p a = false := hA a (List.mem_cons_self _ _)
    rw [List.cons_append, List.find?_cons, ha]
    exact ih (fun x hx => hA x (List.mem_cons_of_mem _ hx))

/-! ## Properties of preserveLegacyCatalogBehavior -/

theorem sample_adjacent_lower : Adjacent "lower" sampleCatalog :=
  ⟨List.replicate 18 absInt ++ [concatAny], [lowerBytea, lowerChar, lowerText],
    [seriesInt, seriesBig, seriesNumeric, lengthText], by decide, by decide, by decide,
    by decide⟩

theorem sample_adjacent_series : Adjacent "generate_series" sampleCatalog :=
  ⟨List.replicate 18 absInt ++ [concatAny, lowerBytea, lowerChar, lowerText],
    [seriesInt, seriesBig, seriesNumeric], [lengthText], by decide, by decide, by decide,
    by decide⟩

/-- C1: the list returned by preserveLegacyCatalogBehavior holds no proc named concat,
whatever the input list. -/
theorem C1_no_concat (allProcs : List Proc) :
    ∀ p ∈ preserveLegacyCatalogBehavior allProcs, p.Name ≠ "concat" := by
  intro p hp
  unfold preserveLegacyCatalogBehavior at hp
  have := (List.mem_filter.mp hp).2
  simpa using this

theorem C1_no_concat_witness :
    lowerText ∈ preserveLegacyCatalogBehavior [concatAny, lowerText, concatAny] ∧
      lowerText.Name ≠ "concat" :=
  have h : lowerText ∈ preserveLegacyCatalogBehavior [concatAny, lowerText, concatAny] := by
    unfold preserveLegacyCatalogBehavior SliceStable
    rw [stable_small _ _ _ (by decide)]
    decide
  ⟨h, C1_no_concat [concatAny, lowerText, concatAny] lowerText h⟩

/-- C9: the output of preserveLegacyCatalogBehavior is a permutation of the input without
its procs named concat; every other proc occurs as often as in the input, and the length
drops by the number of procs named concat. -/
theorem C9_permutation_minus_concat (allProcs : List Proc) :
    (preserveLegacyCatalogBehavior allProcs).Perm
      (allProcs.filter (fun p => !(p.Name == "concat"))) ∧
    (∀ p : Proc, p.Name ≠ "concat" →
      (preserveLegacyCatalogBehavior allProcs).count p = allProcs.count p) ∧
    (preserveLegacyCatalogBehavior allProcs).length =
      allProcs.length - allProcs.countP (fun p => p.Name == "concat") := by
  have hperm : (preserveLegacyCatalogBehavior allProcs).Perm
      (allProcs.filter (fun p => !(p.Name == "concat"))) :=
    (SliceStable_perm legacyLess allProcs).filter _
  refine ⟨hperm, ?_, ?_⟩
  · intro p hp
    rw [hperm.count_eq, List.count_filter]
    simpa using hp
  · rw [hperm.length_eq]
    have h1 := List.length_eq_countP_add_countP (fun p : Proc => p.Name == "concat") allProcs
    have h2 : (allProcs.filter (fun p => !(p.Name == "concat"))).length =
        allProcs.countP (fun a => decide ¬ (a.Name == "concat") = true) := by
      rw [List.countP_eq_length_filter]
      congr 2
      funext a
      cases (a.Name == "concat") <;> rfl
    omega

/-- C10: when the procs named lower are adjacent and so are the procs named
generate_series, with exactly one designated overload of each, then for a list of any
length the first proc named lower of the output is the overload whose only argument type
is text, and the first proc named generate_series is the overload with two arguments whose
first type is numeric; the comparator is not a strict ordering (it relates a designated
overload to itself). -/
theorem C10_designated_first (allProcs : List Proc) (hL : Adjacent "lower" allProcs)
    (hG : Adjacent "generate_series" allProcs) (h1 : allProcs.countP isLowerText = 1)
    (h2 : allProcs.countP isSeriesNumeric = 1) :
    (∃ t, (preserveLegacyCatalogBehavior allProcs).find? (fun p => p.Name == "lower") = some t ∧
      t.ArgTypes = ["text"]) ∧
    (∃ t, (preserveLegacyCatalogBehavior allProcs).find? (fun p => p.Name == "generate_series")
        = some t ∧ t.ArgTypes.length = 2 ∧ t.ArgTypes[0]? = some "numeric") ∧
    (∃ p : Proc, legacyLess p p = true) := by
  refine ⟨?_, ?_, ⟨lowerText, by decide⟩⟩
  · obtain ⟨t, ht, hp⟩ := List.countP_pos_iff.mp (by omega : 0 < allProcs.countP isLowerText)
    have hd : legacyDes t = true := by unfold legacyDes; simp [hp]
    obtain ⟨A, C, hAC, hA⟩ := legacy_front allProcs hL hG (by omega) (by omega) t ht hd
    have hn : t.Name = "lower" := by
      unfold isLowerText at hp; simp at hp; exact hp.1.1
    refine ⟨t, ?_, ?_⟩
    · rw [hAC]
      apply find_front
      · intro x hx
        have := hA x hx
        rw [(legacyGrp_lower t).mpr hn] at this
        have hx2 : ¬ x.Name = "lower" := fun h => this ((legacyGrp_lower x).mpr h)
        simpa using hx2
      · simpa using hn
    · unfold isLowerText at hp
      simp at hp
      have hlen := hp.1.2
      have h0 := hp.2
      match hT : t.ArgTypes, hlen, h0 with
      | [a], _, h0 => simp at h0; rw [h0]
  · obtain ⟨t, ht, hp⟩ := List.countP_pos_iff.mp (by omega : 0 < allProcs.countP isSeriesNumeric)
    have hd : legacyDes t = true := by unfold legacyDes; simp [hp]
    obtain ⟨A, C, hAC, hA⟩ := legacy_front allProcs hL hG (by omega) (by omega) t ht hd
    have hn : t.Name = "generate_series" := by
      unfold isSeriesNumeric at hp; simp at hp; exact hp.1.1
    refine ⟨t, ?_, ?_⟩
    · rw [hAC]
      apply find_front
      · intro x hx
        have := hA x hx
        rw [(legacyGrp_series t).mpr hn] at this
        have hx2 : ¬ x.Name = "generate_series" := fun h => this ((legacyGrp_series x).mpr h)
        simpa using hx2
      · simpa using hn
    · unfold isSeriesNumeric at hp
      simp at hp
      exact ⟨hp.1.2, hp.2⟩

theorem C10_designated_first_witness :
    Adjacent "lower" sampleCatalog ∧ Adjacent "generate_series" sampleCatalog ∧
    sampleCatalog.countP isLowerText = 1 ∧ sampleCatalog.countP isSeriesNumeric = 1 ∧
    20 < sampleCatalog.length ∧
    ((∃ t, (preserveLegacyCatalogBehavior sampleCatalog).find? (fun p => p.Name == "lower")
        = some t ∧ t.ArgTypes = ["text"]) ∧
    (∃ t, (preserveLegacyCatalogBehavior sampleCatalog).find?
        (fun p => p.Name == "generate_series") = some t ∧
      t.ArgTypes.length = 2 ∧ t.ArgTypes[0]? = some "numeric") ∧
    (∃ p : Proc, legacyLess p p = true)) :=
  ⟨sample_adjacent_lower, sample_adjacent_series, by decide, by decide, by decide,
    C10_designated_first sampleCatalog sample_adjacent_lower sample_adjacent_series
      (by decide) (by decide)⟩

theorem countP_output_le (p : Proc → Bool) (l : List Proc) :
    (preserveLegacyCatalogBehavior l).countP p ≤ l.countP p := by
  unfold preserveLegacyCatalogBehavior
  calc ((SliceStable legacyLess l).filter _).countP p
      ≤ (SliceStable legacyLess l).countP p := (List.filter_sublist _).countP_le _
    _ = l.countP p := (SliceStable_perm legacyLess l).countP_eq _

theorem mem_output (l : List Proc) (x : Proc) (h : x ∈ preserveLegacyCatalogBehavior l) :
    x ∈ l := by
  unfold preserveLegacyCatalogBehavior at h
  exact (SliceStable_perm legacyLess l).mem_iff.mp (List.mem_filter.mp h).1

theorem index_after_front (p : Proc → Bool) (g : Nat) (out A C : List Proc) (x y : Proc)
    (i j : Nat) (hout : out = A ++ x :: C) (hA : ∀ a ∈ A, legacyGrp a ≠ g)
    (hc : out.countP p ≤ 1) (hi : out[i]? = some x) (hj : out[j]? = some y)
    (hx : p x = true) (hy : p y = false) (hg : legacyGrp y = g) : i < j := by
  have hAx : out[A.length]? = some x := by
    rw [hout, List.getElem?_append_right (Nat.le_refl _)]
    simp
  have hiA : i = A.length := countP_unique p out hc i A.length x x hi hAx hx hx
  subst hiA
  rcases Nat.lt_trichotomy j A.length with hlt | heq | hgt
  · exfalso
    rw [hout, List.getElem?_append_left hlt] at hj
    exact hA y (mem_of_getElem? hj) hg
  · exfalso
    rw [heq, hAx] at hj
    have : x = y := by simpa using hj
    rw [this, hy] at hx
    cases hx
  · exact hgt

/-- C2 (amended): when the procs named lower are adjacent and so are the procs named
generate_series, with at most one designated overload of each, the designated overload
comes before every other proc of its name in the output of preserveLegacyCatalogBehavior. -/
theorem C2_designated_before_others (allProcs : List Proc) (hL : Adjacent "lower" allProcs)
    (hG : Adjacent "generate_series" allProcs) (h1 : allProcs.countP isLowerText ≤ 1)
    (h2 : allProcs.countP isSeriesNumeric ≤ 1) :
    ∀ (i j : Nat) (x y : Proc), (preserveLegacyCatalogBehavior allProcs)[i]? = some x →
      (preserveLegacyCatalogBehavior allProcs)[j]? = some y →
      ((isLowerText x = true ∧ y.Name = "lower" ∧ isLowerText y = false) ∨
        (isSeriesNumeric x = true ∧ y.Name = "generate_series" ∧ isSeriesNumeric y = false)) →
      i < j := by
  intro i j x y hi hj h
  have hxl : x ∈ allProcs := mem_output allProcs x (mem_of_getElem? hi)
  rcases h with ⟨hx, hyn, hy⟩ | ⟨hx, hyn, hy⟩
  · have hd : legacyDes x = true := by unfold legacyDes; simp [hx]
    obtain ⟨A, C, hAC, hA⟩ := legacy_front allProcs hL hG h1 h2 x hxl hd
    have hgx : legacyGrp x = 1 := by
      rcases legacyDes_grp x hd with ⟨_, hg⟩ | ⟨hs, _⟩
      · exact hg
      · exfalso
        unfold isLowerText at hx; unfold isSeriesNumeric at hs
        simp at hx hs
        rw [hx.1.1] at hs
        exact absurd hs.1.1 (by decide)
    exact index_after_front isLowerText (legacyGrp x) _ A C x y i j hAC hA
      (Nat.le_trans (countP_output_le _ _) h1) hi hj hx hy
      (by rw [hgx]; exact (legacyGrp_lower y).mpr hyn)
  · have hd : legacyDes x = true := by unfold legacyDes; simp [hx]
    obtain ⟨A, C, hAC, hA⟩ := legacy_front allProcs hL hG h1 h2 x hxl hd
    have hgx : legacyGrp x = 2 := by
      rcases legacyDes_grp x hd with ⟨hs, _⟩ | ⟨_, hg⟩
      · exfalso
        unfold isLowerText at hs; unfold isSeriesNumeric at hx
        simp at hx hs
        rw [hx.1.1] at hs
        exact absurd hs.1.1 (by decide)
      · exact hg
    exact index_after_front isSeriesNumeric (legacyGrp x) _ A C x y i j hAC hA
      (Nat.le_trans (countP_output_le _ _) h2) hi hj hx hy
      (by rw [hgx]; exact (legacyGrp_series y).mpr hyn)

theorem C2_designated_before_others_witness :
    Adjacent "lower" sampleCatalog ∧ Adjacent "generate_series" sampleCatalog ∧
    sampleCatalog.countP isLowerText ≤ 1 ∧ sampleCatalog.countP isSeriesNumeric ≤ 1 ∧
    ∀ (i j : Nat) (x y : Proc), (preserveLegacyCatalogBehavior sampleCatalog)[i]? = some x →
      (preserveLegacyCatalogBehavior sampleCatalog)[j]? = some y →
      ((isLowerText x = true ∧ y.Name = "lower" ∧ isLowerText y = false) ∨
        (isSeriesNumeric x = true ∧ y.Name = "generate_series" ∧ isSeriesNumeric y = false)) →
      i < j :=
  ⟨sample_adjacent_lower, sample_adjacent_series, by decide, by decide,
    C2_designated_before_others sampleCatalog sample_adjacent_lower sample_adjacent_series
      (by decide) (by decide)⟩

/-- C2 (as stated) fails: for the input lower(bytea), length(text), lower(text), in which
the procs named lower are not adjacent, the output keeps lower(bytea) before the designated
overload lower(text). -/
theorem C2_counterexample :
    ∃ (i j : Nat) (x y : Proc), i < j ∧
      (preserveLegacyCatalogBehavior [lowerBytea, lengthText, lowerText])[i]? = some x ∧
      (preserveLegacyCatalogBehavior [lowerBytea, lengthText, lowerText])[j]? = some y ∧
      x.Name = "lower" ∧ isLowerText x = false ∧ isLowerText y = true := by
  have h : preserveLegacyCatalogBehavior [lowerBytea, lengthText, lowerText] =
      [lowerBytea, lengthText, lowerText] := by
    unfold preserveLegacyCatalogBehavior SliceStable
    rw [stable_small _ _ _ (by decide)]
    decide
  rw [h]
  exact ⟨0, 2, lowerBytea, lowerText, by decide, by decide, by decide, by decide, by decide,
    by decide⟩

/-- Without a designated overload in the list the sort moves nothing. -/
theorem sort_no_designated (l : List Proc) (h : ∀ p ∈ l, legacyDes p = false) :
    SliceStable legacyLess l = l := by
  have hC : Contig legacyDes legacyGrp l := by
    intro q i k j hq
    obtain ⟨x, hx, hdx⟩ := desAt_some hq
    rw [h x (mem_of_getElem? hx)] at hdx
    cases hdx
  have hU : Uniq legacyDes legacyGrp l := by
    intro i j hi
    obtain ⟨x, hx, hdx⟩ := desAt_some hi
    rw [h x (mem_of_getElem? hx)] at hdx
    cases hdx
  have hs := (SliceStable_spec legacyLess_designating l hC hU).2.1
  have e1 : l.filter (fun x => !legacyDes x) = l :=
    List.filter_eq_self.mpr (fun a ha => by simp [h a ha])
  have e2 : (SliceStable legacyLess l).filter (fun x => !legacyDes x) =
      SliceStable legacyLess l :=
    List.filter_eq_self.mpr (fun a ha => by
      simp [h a ((SliceStable_perm legacyLess l).mem_iff.mp ha)])
  rw [e1, e2] at hs
  exact hs

/-- C7 (amended): preserveLegacyCatalogBehavior does not sort by the composite key; it
keeps the order of its input. Every list without a designated overload is returned in
input order without its procs named concat; and when the procs named lower are adjacent
and so are the procs named generate_series, with at most one designated overload of each,
the procs other than the designated overloads stand in the output in their input order
(without the procs named concat). -/
theorem C7_input_order_kept (allProcs : List Proc) :
    ((∀ p ∈ allProcs, legacyDes p = false) →
      preserveLegacyCatalogBehavior allProcs =
        allProcs.filter (fun p => !(p.Name == "concat"))) ∧
    (Adjacent "lower" allProcs → Adjacent "generate_series" allProcs →
      allProcs.countP isLowerText ≤ 1 → allProcs.countP isSeriesNumeric ≤ 1 →
      (preserveLegacyCatalogBehavior allProcs).filter (fun p => !legacyDes p) =
        (allProcs.filter (fun p => !(p.Name == "concat"))).filter (fun p => !legacyDes p)) := by
  constructor
  · intro hnd
    unfold preserveLegacyCatalogBehavior
    rw [sort_no_designated allProcs hnd]
  · intro hL hG h1 h2
    have hs := (legacy_sorted allProcs hL hG h1 h2).2
    unfold preserveLegacyCatalogBehavior
    rw [List.filter_filter, List.filter_filter]
    have e : ∀ l : List Proc, l.filter (fun a => (!legacyDes a) && !(a.Name == "concat")) =
        (l.filter (fun x => !legacyDes x)).filter (fun p => !(p.Name == "concat")) := by
      intro l
      rw [List.filter_filter]
      congr 1
      funext a
      exact Bool.and_comm _ _
    rw [e, e, hs]

theorem C7_input_order_kept_witness :
    ((∀ p ∈ [lowerBytea, concatAny, lengthText, lowerChar], legacyDes p = false) ∧
      preserveLegacyCatalogBehavior [lowerBytea, concatAny, lengthText, lowerChar] =
        [lowerBytea, lengthText, lowerChar]) ∧
    (Adjacent "lower" sampleCatalog ∧ Adjacent "generate_series" sampleCatalog ∧
      sampleCatalog.countP isLowerText ≤ 1 ∧ sampleCatalog.countP isSeriesNumeric ≤ 1 ∧
      (preserveLegacyCatalogBehavior sampleCatalog).filter (fun p => !legacyDes p) =
        List.replicate 18 absInt ++
          [lowerBytea, lowerChar, seriesInt, seriesBig, lengthText]) :=
  ⟨⟨by decide,
      ((C7_input_order_kept [lowerBytea, concatAny, lengthText, lowerChar]).1
        (by decide)).trans (by decide)⟩,
    sample_adjacent_lower, sample_adjacent_series, by decide, by decide,
    ((C7_input_order_kept sampleCatalog).2 sample_adjacent_lower sample_adjacent_series
      (by decide) (by decide)).trans (by decide)⟩

/-- C7 (as stated) fails: the lists abs, length and length, abs are permutations of each
other, and preserveLegacyCatalogBehavior returns each of them unchanged, so the two
outputs differ. -/
theorem C7_counterexample :
    [lengthText, absInt].Perm [absInt, lengthText] ∧
    preserveLegacyCatalogBehavior [lengthText, absInt] ≠
      preserveLegacyCatalogBehavior [absInt, lengthText] := by
  refine ⟨List.Perm.swap _ _ _, ?_⟩
  unfold preserveLegacyCatalogBehavior SliceStable
  rw [stable_small _ _ _ (by decide), stable_small _ _ _ (by decide)]
  decide

/-! ## The extension loop of run and the dispatch function -/

/-- C3: for pgcrypto, with the two overloads digest(bytea, text) and digest(text, text) in
either input order, the list that the extension loop hands to the emitter has
digest(text, text) first, and both records are the records that were read. -/
theorem C3_digest_text_first (u : UnicodeTables) (n1 n2 : List String) (d1 d2 : List Bool)
    (m1 m2 : List String) (r1 r2 : String) :
    (extensionCtx u "pgcrypto"
      [⟨"digest", ["bytea", "text"], n1, d1, m1, r1⟩,
        ⟨"digest", ["text", "text"], n2, d2, m2, r2⟩]).Procs =
      [⟨"digest", ["text", "text"], n2, d2, m2, r2⟩,
        ⟨"digest", ["bytea", "text"], n1, d1, m1, r1⟩] ∧
    (extensionCtx u "pgcrypto"
      [⟨"digest", ["text", "text"], n2, d2, m2, r2⟩,
        ⟨"digest", ["bytea", "text"], n1, d1, m1, r1⟩]).Procs =
      [⟨"digest", ["text", "text"], n2, d2, m2, r2⟩,
        ⟨"digest", ["bytea", "text"], n1, d1, m1, r1⟩] := by
  unfold extensionCtx sortExtensionProcs SliceStable
  constructor
  · rw [stable_small _ _ _ (by simp)]
    simp [insertionSort_func, insertionInner, lessAt, swap, extensionLess]
  · rw [stable_small _ _ _ (by simp)]
    simp [insertionSort_func, insertionInner, lessAt, swap, extensionLess]

theorem extensions_nodup : extensions.Nodup := by decide

theorem extensionName_nodup : (extensions.map extensionName).Nodup := by decide

theorem step_inv (u : UnicodeTables) (w : World) (dir : String) (all : List String)
    (st st2 : LoopState) (e : String) (he : e ∈ all) (hinv : LoopInv u w dir all st)
    (hstep : extensionStep u w dir st e = .ok st2) : LoopInv u w dir all st2 := by
  unfold extensionStep at hstep
  cases hc : w.createExtension e with
  | some err => rw [hc] at hstep; cases hstep
  | none =>
    rw [hc] at hstep
    cases hq : w.queryProcs e with
    | error err => rw [hq] at hstep; cases hstep
    | ok procs =>
      rw [hq] at hstep
      simp only at hstep
      by_cases hz : procs.length = 0
      · rw [if_pos hz] at hstep
        cases hstep
        exact hinv
      · rw [if_neg hz] at hstep
        cases hw : w.writeFormattedGo (extensionCtx u e procs) (extensionPath dir e) with
        | some err => rw [hw] at hstep; cases hstep
        | none =>
          rw [hw] at hstep
          cases hstep
          have hne : procs ≠ [] := fun h => hz (by rw [h]; rfl)
          constructor
          · intro p hp
            rcases List.mem_append.mp hp with hp | hp
            · obtain ⟨h1, h2, h3, f, hf, hfp⟩ := hinv.1 p hp
              exact ⟨h1, h2, h3, f, List.mem_append_left _ hf, hfp⟩
            · have : p = ⟨e, funcName u e⟩ := by simpa using hp
              subst this
              exact ⟨he, rfl, ⟨procs, hq, hne⟩, _, List.mem_append_right _
                (List.mem_singleton_self _), rfl⟩
          · intro f hf
            rcases List.mem_append.mp hf with hf | hf
            · obtain ⟨p, hp, hfp⟩ := hinv.2 f hf
              exact ⟨p, List.mem_append_left _ hp, hfp⟩
            · have : f = (extensionPath dir e, extensionCtx u e procs) := by simpa using hf
              subst this
              exact ⟨⟨e, funcName u e⟩, List.mem_append_right _ (List.mem_singleton_self _),
                rfl⟩

theorem loop_inv (u : UnicodeTables) (w : World) (dir : String) (all : List String) :
    ∀ (exts : List String) (st : LoopState), (∀ e ∈ exts, e ∈ all) →
    LoopInv u w dir all st → LoopInv u w dir all (extensionLoop u w dir exts st).1
  | [], st, _, hinv => by simpa [extensionLoop] using hinv
  | e :: rest, st, hsub, hinv => by
    unfold extensionLoop
    cases hs : extensionStep u w dir st e with
    | error err => exact hinv
    | ok st2 =>
      exact loop_inv u w dir all rest st2 (fun x hx => hsub x (List.mem_cons_of_mem _ hx))
        (step_inv u w dir all st st2 e (hsub e (List.mem_cons_self _ _)) hinv hs)

theorem loop_names (u : UnicodeTables) (w : World) (dir : String) :
    ∀ (exts : List String) (st : LoopState),
    ∃ sub, sub.Sublist exts ∧
      (extensionLoop u w dir exts st).1.loaded.map (fun p => p.Name) =
        st.loaded.map (fun p => p.Name) ++ sub
  | [], st => ⟨[], List.Sublist.refl _, by simp [extensionLoop]⟩
  | e :: rest, st => by
    unfold extensionLoop
    cases hs : extensionStep u w dir st e with
    | error err => exact ⟨[], List.nil_sublist _, by simp⟩
    | ok st2 =>
      obtain ⟨sub, hsub, heq⟩ := loop_names u w dir rest st2
      simp only
      unfold extensionStep at hs
      cases hc : w.createExtension e with
      | some err => rw [hc] at hs; cases hs
      | none =>
        rw [hc] at hs
        cases hq : w.queryProcs e with
        | error err => rw [hq] at hs; cases hs
        | ok procs =>
          rw [hq] at hs
          simp only at hs
          by_cases hz : procs.length = 0
          · rw [if_pos hz] at hs
            cases hs
            exact ⟨sub, hsub.cons e, heq⟩
          · rw [if_neg hz] at hs
            cases hw : w.writeFormattedGo (extensionCtx u e procs) (extensionPath dir e) with
            | some err => rw [hw] at hs; cases hs
            | none =>
              rw [hw] at hs
              cases hs
              refine ⟨e :: sub, hsub.cons₂ e, ?_⟩
              rw [heq]
              simp

theorem switchCases_found : ∀ (ld : List extensionPair),
    (ld.map (fun p => p.Name)).Nodup → ∀ p ∈ ld, switchCases ld p.Name = some p.Func
  | [], _, p, hp => by cases hp
  | q :: rest, hnd, p, hp => by
    unfold switchCases
    rw [List.map_cons, List.nodup_cons] at hnd
    rcases List.mem_cons.mp hp with h | h
    · subst h; simp
    · have hne : p.Name ≠ q.Name := by
        intro heq
        exact hnd.1 (heq ▸ List.mem_map_of_mem _ h)
      rw [if_neg hne]
      exact switchCases_found rest hnd.2 p h

theorem switchCases_absent : ∀ (ld : List extensionPair) (name : String),
    (∀ p ∈ ld, p.Name ≠ name) → switchCases ld name = none
  | [], _, _ => rfl
  | q :: rest, name, h => by
    unfold switchCases
    rw [if_neg (fun heq => h q (List.mem_cons_self _ _) heq.symm)]
    exact switchCases_absent rest name (fun p hp => h p (List.mem_cons_of_mem _ hp))

/-- When run has recorded at least one pair, the rendered file has a function
loadExtension; it returns for every recorded name the constructor recorded for it, which
is the constructor name computed from that name, and nil for every other name. -/
theorem dispatch_of_recorded (u : UnicodeTables) (w : World) (dir : String)
    (hne : recordedPairs u w dir ≠ []) :
    ∃ f, loadExtension (recordedPairs u w dir) = some f ∧
      (∀ p ∈ recordedPairs u w dir,
        f p.Name = some p.Func ∧ p.Func = funcName u p.Name ∧ p.Name ∈ extensions) ∧
      (∀ name : String, (∀ p ∈ recordedPairs u w dir, p.Name ≠ name) → f name = none) := by
  have hinv : LoopInv u w dir extensions (extensionLoop u w dir extensions ⟨[], [], []⟩).1 :=
    loop_inv u w dir extensions extensions _ (fun _ h => h)
      ⟨fun p hp => (by cases hp), fun f hf => (by cases hf)⟩
  obtain ⟨sub, hsub, hnames⟩ := loop_names u w dir extensions ⟨[], [], []⟩
  have hnd : ((recordedPairs u w dir).map (fun p => p.Name)).Nodup := by
    unfold recordedPairs
    rw [hnames]
    simpa using hsub.nodup extensions_nodup
  refine ⟨switchCases (recordedPairs u w dir), ?_, ?_, ?_⟩
  · unfold loadExtension
    rw [if_neg hne, if_pos hnd]
  · intro p hp
    obtain ⟨h1, h2, _, _⟩ := hinv.1 p hp
    exact ⟨switchCases_found _ hnd p hp, h2, h1⟩
  · intro name h
    exact switchCases_absent _ name h

theorem quiet_loop (u : UnicodeTables) (dir : String) :
    ∀ (exts : List String) (st : LoopState),
    (extensionLoop u quietWorld dir exts st).2 = none ∧
      (extensionLoop u quietWorld dir exts st).1.loaded = st.loaded ∧
      (extensionLoop u quietWorld dir exts st).1.written = st.written
  | [], st => by simp [extensionLoop]
  | e :: rest, st => by
    have hs : extensionStep u quietWorld dir st e =
        .ok { st with logged := st.logged ++ ["no functions in " ++ e ++ ", skipping"] } := by
      simp [extensionStep, quietWorld]
    unfold extensionLoop
    rw [hs]
    exact quiet_loop u dir rest _

/-- C4: in a database where every extension of the fixed list installs and reports no
function, the extension loop of run ends without error, no pair is recorded and no file
is written; the text rendered from loaderFuncTmpl is then the template with an empty
switch, in which the package contrib is named by the header alone and never used, so
the rendered file has no function loadExtension, where C4 asks for a function that
returns nil for every name. -/
theorem C4_no_pairs_no_function (u : UnicodeTables) (dir : String) :
    (extensionLoop u quietWorld dir extensions ⟨[], [], []⟩).2 = none ∧
    (extensionLoop u quietWorld dir extensions ⟨[], [], []⟩).1.written = [] ∧
    recordedPairs u quietWorld dir = [] ∧
    renderLoader (recordedPairs u quietWorld dir) =
      loaderHead ++ "\n\t\x7d\n\treturn nil\n\x7d\n" ∧
    ¬ ("contrib.".data <:+: (renderLoader (recordedPairs u quietWorld dir)).data) ∧
    loadExtension (recordedPairs u quietWorld dir) = none := by
  have h := quiet_loop u dir extensions ⟨[], [], []⟩
  have hr : recordedPairs u quietWorld dir = [] := h.2.1
  refine ⟨h.1, h.2.2, hr, ?_, ?_, ?_⟩
  · rw [hr]; rfl
  · rw [hr]; decide
  · rw [hr]; rfl

theorem dispatch_of_recorded_example :
    recordedPairs ⟨fun _ => false, fun _ => false, id⟩ busyWorld "out" ≠ [] ∧
    ∃ f, loadExtension (recordedPairs ⟨fun _ => false, fun _ => false, id⟩ busyWorld "out")
        = some f ∧ f "uuid-ossp" = some "UuidOssp" ∧ f "uuid_ossp" = none := by
  have hne : recordedPairs ⟨fun _ => false, fun _ => false, id⟩ busyWorld "out" ≠ [] := by
    decide
  obtain ⟨f, hf, h1, h2⟩ := dispatch_of_recorded _ busyWorld "out" hne
  refine ⟨hne, f, hf, ?_, ?_⟩
  · have hm : (⟨"uuid-ossp", "UuidOssp"⟩ : extensionPair) ∈
        recordedPairs ⟨fun _ => false, fun _ => false, id⟩ busyWorld "out" := by decide
    exact (h1 _ hm).1
  · apply h2
    decide

theorem extensionName_inj (a b : String) (ha : a ∈ extensions) (hb : b ∈ extensions)
    (h : extensionName a = extensionName b) : a = b :=
  List.inj_on_of_nodup_map extensionName_nodup ha hb h

theorem extensionPath_inj (dir a b : String) (ha : a ∈ extensions) (hb : b ∈ extensions)
    (h : extensionPath dir a = extensionPath dir b) : a = b := by
  unfold extensionPath at h
  simp only [List.cons.injEq, and_true, true_and] at h
  apply extensionName_inj a b ha hb
  have hd := congrArg String.data h
  simp only [String.data_append] at hd
  exact String.ext (List.append_cancel_right hd)

/-- C5: an extension whose introspection succeeds with zero procs leaves the recorded
pairs and the written files as they were and the loop goes on with the next extension
(the iteration returns no error); over the fixed list, such an extension has no file and
no pair at the end, and an extension is recorded exactly when its introspection returned
at least one proc and its file was written. -/
theorem C5_skip_on_empty (u : UnicodeTables) (w : World) (dir : String) :
    (∀ (st : LoopState) (e : String) (rest : List String), w.createExtension e = none →
      w.queryProcs e = .ok [] →
      ∃ st2, extensionStep u w dir st e = .ok st2 ∧ st2.loaded = st.loaded ∧
        st2.written = st.written ∧
        extensionLoop u w dir (e :: rest) st = extensionLoop u w dir rest st2) ∧
    (∀ e ∈ extensions, w.queryProcs e = .ok [] →
      (∀ p ∈ (extensionLoop u w dir extensions ⟨[], [], []⟩).1.loaded, p.Name ≠ e) ∧
      (∀ f ∈ (extensionLoop u w dir extensions ⟨[], [], []⟩).1.written,
        f.1 ≠ extensionPath dir e)) ∧
    (∀ e ∈ extensions,
      ((∃ p ∈ (extensionLoop u w dir extensions ⟨[], [], []⟩).1.loaded, p.Name = e) ↔
        ((∃ procs, w.queryProcs e = .ok procs ∧ procs ≠ []) ∧
          ∃ f ∈ (extensionLoop u w dir extensions ⟨[], [], []⟩).1.written,
            f.1 = extensionPath dir e))) := by
  have hinv : LoopInv u w dir extensions (extensionLoop u w dir extensions ⟨[], [], []⟩).1 :=
    loop_inv u w dir extensions extensions _ (fun _ h => h)
      ⟨fun p hp => (by cases hp), fun f hf => (by cases hf)⟩
  refine ⟨?_, ?_, ?_⟩
  · intro st e rest hc hq
    have hs : extensionStep u w dir st e =
        .ok { st with logged := st.logged ++ ["no functions in " ++ e ++ ", skipping"] } := by
      unfold extensionStep
      rw [hc, hq]
      simp
    refine ⟨_, hs, rfl, rfl, ?_⟩
    conv => lhs; unfold extensionLoop
    rw [hs]
  · intro e he hq
    constructor
    · intro p hp hpe
      obtain ⟨_, _, ⟨procs, hq2, hne⟩, _⟩ := hinv.1 p hp
      rw [hpe, hq] at hq2
      cases hq2
      exact hne rfl
    · intro f hf hfe
      obtain ⟨p, hp, hfp⟩ := hinv.2 f hf
      obtain ⟨hpall, _, ⟨procs, hq2, hne⟩, _⟩ := hinv.1 p hp
      have : e = p.Name := extensionPath_inj dir e p.Name he hpall (hfe.symm.trans hfp)
      rw [← this, hq] at hq2
      cases hq2
      exact hne rfl
  · intro e he
    constructor
    · rintro ⟨p, hp, rfl⟩
      obtain ⟨_, _, h3, h4⟩ := hinv.1 p hp
      exact ⟨h3, h4⟩
    · rintro ⟨_, f, hf, hfe⟩
      obtain ⟨p, hp, hfp⟩ := hinv.2 f hf
      obtain ⟨hpall, _, _, _⟩ := hinv.1 p hp
      have : e = p.Name := extensionPath_inj dir e p.Name he hpall (hfe.symm.trans hfp)
      exact ⟨p, hp, this.symm⟩

/-! ## clean and the constructor names -/

theorem dropWhile_spaces (p : Char → Bool) : ∀ (ws rest : List Char), (∀ c ∈ ws, p c = true) →
    (ws ++ rest).dropWhile p = rest.dropWhile p
  | [], rest, _ => rfl
  | c :: ws, rest, h => by
    rw [List.cons_append, List.dropWhile_cons, if_pos (h c (List.mem_cons_self _ _))]
    exact dropWhile_spaces p ws rest (fun x hx => h x (List.mem_cons_of_mem _ hx))

theorem dropWhile_stop (p : Char → Bool) (l : List Char)
    (h : ∀ c, l.head? = some c → p c = false) : l.dropWhile p = l := by
  cases l with
  | nil => rfl
  | cons c cs =>
    rw [List.dropWhile_cons, h c rfl]
    simp

/-- Go strings.TrimSpace gives back the text between the surrounding white space. -/
theorem TrimSpace_core (ws1 core ws2 : List Char) (h1 : ∀ c ∈ ws1, isSpace c = true)
    (h2 : ∀ c ∈ ws2, isSpace c = true) (hh : ∀ c, core.head? = some c → isSpace c = false)
    (hl : ∀ c, core.getLast? = some c → isSpace c = false) :
    TrimSpace (ws1 ++ core ++ ws2) = core := by
  unfold TrimSpace
  rw [List.append_assoc, dropWhile_spaces isSpace ws1 _ h1]
  cases core with
  | nil =>
    have e : ([] ++ ws2).dropWhile isSpace = [] := by
      have := dropWhile_spaces isSpace ws2 [] h2
      simpa using this
    rw [e]; rfl
  | cons c cs =>
    have e1 : (c :: cs ++ ws2).dropWhile isSpace = c :: cs ++ ws2 :=
      dropWhile_stop isSpace _ (fun x hx => hh x (by
        rw [List.cons_append, List.head?_cons] at hx
        rw [List.head?_cons]; exact hx))
    have e2 : (ws2.reverse ++ (c :: cs).reverse).dropWhile isSpace = (c :: cs).reverse := by
      rw [dropWhile_spaces isSpace ws2.reverse _ (fun x hx => h2 x (List.mem_reverse.mp hx))]
      exact dropWhile_stop isSpace _ (fun x hx => hl x (by
        rw [List.head?_reverse] at hx; exact hx))
    rw [e1, List.reverse_append, e2, List.reverse_reverse]

theorem replaceScan_id (old new : List Char) (q : Char) (hq : q ∈ old) :
    ∀ s : List Char, q ∉ s → replaceScan old new 0 s = s
  | [], _ => rfl
  | c :: cs, h => by
    unfold replaceScan
    have hnp : old.isPrefixOf (c :: cs) = false := by
      cases hp : old.isPrefixOf (c :: cs) with
      | false => rfl
      | true =>
        exfalso
        have := List.isPrefixOf_iff_prefix.mp hp
        exact h (this.subset hq)
    rw [hnp]
    simp only [Bool.false_eq_true, if_false]
    rw [replaceScan_id old new q hq cs (fun hc => h (List.mem_cons_of_mem _ hc))]

theorem Replace_id (s old new : List Char) (q : Char) (hq : q ∈ old) (hs : q ∉ s) :
    Replace s old new = s := by
  unfold Replace
  split_ifs with h1 h2
  · rfl
  · rw [h2] at hq; cases hq
  · exact replaceScan_id old new q hq s hs

/-- C6: clean strips the surrounding white space, returns the quoted spellings of any and
char bare, returns the quoted spelling of timestamp as char, and returns every spelling
without a double quote with only the surrounding white space removed. -/
theorem C6_clean_rules (ws1 ws2 : List Char) (h1 : ∀ c ∈ ws1, isSpace c = true)
    (h2 : ∀ c ∈ ws2, isSpace c = true) :
    clean (String.mk (ws1 ++ "\"any\"".data ++ ws2)) = "any" ∧
    clean (String.mk (ws1 ++ "\"char\"".data ++ ws2)) = "char" ∧
    clean (String.mk (ws1 ++ "\"timestamp\"".data ++ ws2)) = "char" ∧
    (∀ core : List Char, '"' ∉ core → (∀ c, core.head? = some c → isSpace c = false) →
      (∀ c, core.getLast? = some c → isSpace c = false) →
      clean (String.mk (ws1 ++ core ++ ws2)) = String.mk core) := by
  refine ⟨?_, ?_, ?_, ?_⟩
  · unfold clean
    rw [TrimSpace_core ws1 _ ws2 h1 h2 (by decide) (by decide)]
    decide
  · unfold clean
    rw [TrimSpace_core ws1 _ ws2 h1 h2 (by decide) (by decide)]
    decide
  · unfold clean
    rw [TrimSpace_core ws1 _ ws2 h1 h2 (by decide) (by decide)]
    decide
  · intro core hq hh hl
    unfold clean
    rw [TrimSpace_core ws1 _ ws2 h1 h2 hh hl,
      Replace_id core _ _ '"' (by decide) hq, Replace_id core _ _ '"' (by decide) hq,
      Replace_id core _ _ '"' (by decide) hq]

theorem C6_clean_rules_witness :
    (∀ c ∈ [' ', '\t'], isSpace c = true) ∧ (∀ c ∈ ['\n'], isSpace c = true) ∧
    (clean (String.mk ([' ', '\t'] ++ "\"any\"".data ++ ['\n'])) = "any" ∧
    clean (String.mk ([' ', '\t'] ++ "\"char\"".data ++ ['\n'])) = "char" ∧
    clean (String.mk ([' ', '\t'] ++ "\"timestamp\"".data ++ ['\n'])) = "char" ∧
    (∀ core : List Char, '"' ∉ core → (∀ c, core.head? = some c → isSpace c = false) →
      (∀ c, core.getLast? = some c → isSpace c = false) →
      clean (String.mk ([' ', '\t'] ++ core ++ ['\n'])) = String.mk core)) :=
  ⟨by decide, by decide, C6_clean_rules [' ', '\t'] ['\n'] (by decide) (by decide)⟩

/-- C8: for every identifier of the fixed extension list, the constructor name computed
by run is the concatenation of the capitalized segments of the identifier split at the
characters - and _, and holds neither character; uuid-ossp gives UuidOssp and the file
uuid_ossp.go, pgstattuple gives Pgstattuple, pg_stat_statements gives PgStatStatements. -/
theorem C8_constructor_name (u : UnicodeTables) (dir : String) :
    (∀ e ∈ extensions, funcName u e = specFuncName e ∧ '-' ∉ (funcName u e).data ∧
      '_' ∉ (funcName u e).data) ∧
    funcName u "uuid-ossp" = "UuidOssp" ∧
    extensionPath dir "uuid-ossp" = [dir, "contrib", "uuid_ossp.go"] ∧
    funcName u "pgstattuple" = "Pgstattuple" ∧
    funcName u "pg_stat_statements" = "PgStatStatements" := by
  refine ⟨?_, rfl, ?_, rfl, rfl⟩
  · have hspec : ∀ e ∈ extensions, '-' ∉ (specFuncName e).data ∧ '_' ∉ (specFuncName e).data := by
      decide
    have heq : ∀ e ∈ extensions, funcName u e = specFuncName e := by
      intro e he
      fin_cases he <;> rfl
    intro e he
    rw [heq e he]
    exact ⟨rfl, hspec e he⟩
  · unfold extensionPath
    have : extensionName "uuid-ossp" = "uuid_ossp" := by decide
    rw [this]
    rfl

end Sqlc
